import Mathlib

/-!
Shallow embedding of `koboextractor/__init__.py` (class `KoboExtractor`).

Python dicts are modelled as association lists in insertion order
(CPython dicts preserve insertion order; assigning to an existing key
overwrites the value in place, keeping the key's position).  Python
`None` is modelled by `Option.none`; a raised, uncaught exception is
modelled by `Except.error ()`.  The HTTP-transport methods
(`list_assets`, `get_asset`, `get_data`) are pure I/O wrappers outside
every claim and are not embedded.
-/

namespace Kobo

/-- Python `d[k] = v` on an insertion-ordered dict represented as an
association list: overwrite in place if the key exists, else append. -/
def dictInsert [BEq α] : List (α × β) → α → β → List (α × β)
  | [], k, v => [(k, v)]
  | (k', v') :: rest, k, v =>
    if k' == k then (k, v) :: rest else (k', v') :: dictInsert rest k v

/-- Python `d[k]` / `k in d` lookup. -/
def dictGet [BEq α] : List (α × β) → α → Option β
  | [], _ => none
  | (k', v') :: rest, k => if k' == k then some v' else dictGet rest k

/-- Embedding of Python `s.split('/')` on the underlying character list:
split on every `'/'`, keeping empty segments (`''.split('/') == ['']`). -/
def splitSlashChars : List Char → List (List Char)
  | [] => [[]]
  | c :: cs =>
    let r := splitSlashChars cs
    if c = '/' then [] :: r
    else
      match r with
      | h :: t => (c :: h) :: t
      | [] => [[c]]

/-- Embedding of Python `key.split('/')`. -/
def splitSlash (s : String) : List String :=
  (splitSlashChars s.data).map String.mk

/-- Embedding of Python `'/'.join(l)`. -/
def joinSlash : List String → String
  | [] => ""
  | [s] => s
  | s :: rest => s ++ "/" ++ joinSlash rest

/-- Embedding of Python `s.split()` (split on whitespace runs, no empty
parts): accumulator carries the current word reversed. -/
def wsSplitAux : List Char → List Char → List (List Char)
  | [], acc => if acc.isEmpty then [] else [acc.reverse]
  | c :: cs, acc =>
    if c.isWhitespace then
      if acc.isEmpty then wsSplitAux cs [] else acc.reverse :: wsSplitAux cs []
    else wsSplitAux cs (c :: acc)

/-- Embedding of Python `value.split()`. -/
def pySplit (s : String) : List String :=
  (wsSplitAux s.data []).map String.mk

/-- Embedding of Python `key.startswith(p)` for a single p. -/
def strStarts (p k : String) : Bool :=
  p.data.isPrefixOf k.data

/-! ## Raw survey data model

One element of `asset['content']['survey']`.  Every element is assumed
to carry a `'type'` key (the source asserts this assumption in a
comment, line 271).  `label` models `qn['label'][0]` when the `'label'`
key is present (labels are singleton language lists in the source data).
`or_other` models `'_or_other' in qn and qn['_or_other']`. -/
structure SurveyElem where
  type_ : String
  name : Option String
  autoname : Option String
  label : Option String
  select_from_list_name : Option String
  or_other : Bool
deriving DecidableEq, Repr

/-- One element of `asset['content']['choices']`: `label` models
`choice['label'][0]` when present, `None` otherwise (lines 179-182). -/
structure ChoiceElem where
  list_name : String
  name : String
  label : Option String
deriving DecidableEq, Repr

/-- The parts of an asset the core functions read. -/
structure Asset where
  survey : List SurveyElem
  choices : List ChoiceElem
deriving DecidableEq, Repr

/-- A `{'label': ..., 'sequence': ...}` record stored by `get_choices`. -/
structure ChoiceInfo where
  label : Option String
  sequence : Nat
deriving DecidableEq, Repr

/-- Inner dict of `get_choices`: choice code → record, insertion order. -/
abbrev ChoiceList := List (String × ChoiceInfo)

/-- Output of `get_choices`: list name → inner dict, insertion order. -/
abbrev ChoiceIndex := List (String × ChoiceList)

/-- Loop body of `get_choices` (lines 174-188): `sequence` is the
running counter, `acc` the dict built so far. -/
def getChoicesLoop : List ChoiceElem → Nat → ChoiceIndex → ChoiceIndex
  | [], _, acc => acc
  | c :: rest, sequence, acc =>
    let acc1 := if (dictGet acc c.list_name).isSome then acc
                else dictInsert acc c.list_name []
    let bucket := (dictGet acc1 c.list_name).getD []
    let acc2 := dictInsert acc1 c.list_name
                  (dictInsert bucket c.name ⟨c.label, sequence⟩)
    getChoicesLoop rest (sequence + 1) acc2

/-- `KoboExtractor.get_choices` (lines 146-188). -/
def get_choices (choices : List ChoiceElem) : ChoiceIndex :=
  getChoicesLoop choices 0 []

/-! ## `get_questions` (lines 191-340)

The nested result dict is modelled by `Group`/`Question`.  Absent dict
keys are `none`.  The per-choice sub-entry of an unpacked
`select_multiple` question always has `'type': 'select_multiple_option'`
(line 324), so only its variable fields are stored; likewise the
`'other'` sub-entry is always `{'type': '_or_other', 'label': 'Other',
'sequence': n}` (lines 331-335), so only `n` is stored. -/

/-- One entry of `new_question['choices']` (lines 322-326). -/
structure SubChoice where
  label : Option String
  sequence : Nat
deriving DecidableEq, Repr

/-- A `new_question` dict (lines 307-338). -/
structure Question where
  type_ : String
  sequence : Nat
  label : Option String
  list_name : Option String
  choices : Option (List (String × SubChoice))
  other : Option Nat
deriving DecidableEq, Repr

/-- A group dict.  The group name lives in the parent's `'groups'`
map, whose keys are `Option String` because Python happily uses `None`
as a dict key when a `begin_group` element has no name (line 284).
The root group has all-`none` scalar fields. -/
inductive Group where
  | mk (repeat_ : Option Bool) (label : Option String) (sequence : Option Nat)
       (questions : Option (List (String × Question)))
       (groups : Option (List (Option String × Group)))

def Group.repeat_ : Group → Option Bool
  | .mk r _ _ _ _ => r

def Group.label : Group → Option String
  | .mk _ l _ _ _ => l

def Group.sequence : Group → Option Nat
  | .mk _ _ s _ _ => s

def Group.questions : Group → Option (List (String × Question))
  | .mk _ _ _ q _ => q

def Group.groups : Group → Option (List (Option String × Group))
  | .mk _ _ _ _ g => g

/-- A fresh `{}` dict (also the initial `root_group`, line 266). -/
def emptyGroup : Group := .mk none none none none none

/-- `tmp_group['groups'][name] = child` including the
`if 'groups' not in tmp_group: tmp_group['groups'] = {}` guard
(lines 282-284 / reattachment at group close). -/
def setGroupChild (p : Group) (n : Option String) (child : Group) : Group :=
  .mk p.repeat_ p.label p.sequence p.questions
    (some (dictInsert (p.groups.getD []) n child))

/-- `tmp_group['questions'][name] = new_question` including the
`if 'questions' not in tmp_group` guard (lines 302-303, 338). -/
def attachQuestion (g : Group) (n : String) (q : Question) : Group :=
  .mk g.repeat_ g.label g.sequence
    (some (dictInsert (g.questions.getD []) n q)) g.groups

/-- Lines 273-278: the question code, preferring `'name'` over
`'$autoname'`. -/
def pyName (e : SurveyElem) : Option String :=
  match e.name with
  | some n => some n
  | none => e.autoname

/-- The loop of lines 321-326 building `new_choices` over
`sorted_choices`, threading the sequence counter. -/
def mkChoices : List (String × ChoiceInfo) → Nat → List (String × SubChoice) →
    (List (String × SubChoice) × Nat)
  | [], s, acc => (acc, s)
  | (c, info) :: rest, s, acc =>
    mkChoices rest (s + 1) (dictInsert acc c ⟨info.label, s⟩)

/-- Lines 329-336: append the `'other'` sub-entry when
`'_or_other' in qn and qn['_or_other']`. -/
def addOther (e : SurveyElem) (q : Question) (s : Nat) : Question × Nat :=
  if e.or_other then
    (⟨q.type_, q.sequence, q.label, q.list_name, q.choices, some s⟩, s + 1)
  else (q, s)

/-- Lines 306-336: build one `new_question` from a survey element,
starting at counter value `seq`; returns the question and the counter
after it.  `.error` models an uncaught `KeyError` when
`unpack_multiples` is set, the type is `select_multiple`, and either
`qn['select_from_list_name']` (line 317) or `choices[list_name]`
(line 319) is missing. -/
def buildQuestion (chs : ChoiceIndex) (unpack : Bool) (e : SurveyElem)
    (seq : Nat) : Except Unit (Question × Nat) :=
  let base : Question := ⟨e.type_, seq, e.label, e.select_from_list_name, none, none⟩
  if unpack && e.type_ == "select_multiple" then
    match e.select_from_list_name with
    | none => .error ()
    | some ln =>
      match dictGet chs ln with
      | none => .error ()
      | some bucket =>
        let sorted := List.insertionSort (fun a b => a.2.sequence ≤ b.2.sequence) bucket
        let (nc, seq2) := mkChoices sorted (seq + 1) []
        let q1 : Question := ⟨base.type_, base.sequence, base.label,
                              base.list_name, some nc, none⟩
        .ok (addOther e q1 seq2)
  else .ok (addOther e base (seq + 1))

/-- The main loop of `get_questions` (lines 265-340).  The stack frame
`(p, n)` holds the parent group as it was when child `n` was opened
(with a `{}` placeholder already inserted under `n`, line 284);
closing the child overwrites the placeholder, which reproduces the
CPython by-reference mutation of the nested dicts.  At the end of the
input any still-open groups are reattached the same way
(`flattenStack`), matching what the shared references make visible
from `root_group`.  `.error` on a close with an empty stack stands in
for the CPython aliasing games of over-closed inputs (pop of the root
entry / `IndexError`), which no balanced survey reaches. -/
def flattenStack : Group → List (Group × Option String) → Group
  | g, [] => g
  | g, (p, n) :: rest => flattenStack (setGroupChild p n g) rest

def gqLoop (chs : ChoiceIndex) (unpack : Bool) :
    List SurveyElem → Nat → Group → List (Group × Option String) →
    Except Unit Group
  | [], _, cur, stack => .ok (flattenStack cur stack)
  | e :: rest, seq, cur, stack =>
    let name := pyName e
    if e.type_ == "begin_group" || e.type_ == "begin_repeat" then
      let parent := setGroupChild cur name emptyGroup
      let child : Group :=
        .mk (some (e.type_ == "begin_repeat")) e.label (some seq) none none
      gqLoop chs unpack rest (seq + 1) child ((parent, name) :: stack)
    else if e.type_ == "end_group" || e.type_ == "end_repeat" then
      match stack with
      | [] => .error ()
      | (p, n) :: rest' => gqLoop chs unpack rest seq (setGroupChild p n cur) rest'
    else
      match name with
      | none => .error ()  -- `assert name` (line 304)
      | some nm =>
        match buildQuestion chs unpack e seq with
        | .error err => .error err
        | .ok (q, seq') => gqLoop chs unpack rest seq' (attachQuestion cur nm q) stack

/-- `KoboExtractor.get_questions` (lines 191-340).  When
`unpack_multiples` is false Python never evaluates `choices`; passing
the (unused) index is equivalent. -/
def get_questions (asset : Asset) (unpack : Bool) : Except Unit Group :=
  gqLoop (get_choices asset.choices) unpack asset.survey 0 emptyGroup []

/-! ## Raw responses and `sort_results_by_time` (lines 343-375) -/

/-- A value in a raw response dict: either a scalar answer code (the
claims only exercise strings, the type Python's `str.split` and the
choice lookups expect) or a repeat-group instance list, each instance
being a nested response dict.  `isinstance(value, list)` (lines 560,
598) discriminates the two. -/
inductive RVal where
  | str (s : String)
  | list (l : List (List (String × RVal)))

/-- One raw response record. -/
abbrev RawRec := List (String × RVal)

/-- `result['_submission_time']` as a string; `none` models the
`KeyError` on a missing key (or the `TypeError` a non-string value
would raise inside the comparisons). -/
def subTime (r : RawRec) : Option String :=
  match dictGet r "_submission_time" with
  | some (.str s) => some s
  | _ => none

/-- Python's `<=` on strings: lexicographic by code point. -/
def strLeChars : List Char → List Char → Bool
  | [], _ => true
  | _ :: _, [] => false
  | c :: cs, d :: ds =>
    if c.toNat < d.toNat then true
    else if d.toNat < c.toNat then false
    else strLeChars cs ds

/-- Python `a <= b` for strings. -/
def pyStrLe (a b : String) : Bool := strLeChars a.data b.data

theorem strLeChars_refl : ∀ a, strLeChars a a = true := by
  intro a
  induction a with
  | nil => rfl
  | cons c cs ih => simp [strLeChars, ih]

theorem strLeChars_total : ∀ a b, strLeChars a b = true ∨ strLeChars b a = true := by
  intro a
  induction a with
  | nil => intro b; exact Or.inl rfl
  | cons c cs ih =>
    intro b
    cases b with
    | nil => exact Or.inr rfl
    | cons d ds =>
      by_cases hcd : c.toNat < d.toNat
      · exact Or.inl (by simp [strLeChars, hcd])
      · by_cases hdc : d.toNat < c.toNat
        · exact Or.inr (by simp [strLeChars, hdc])
        · rcases ih ds with h | h
          · exact Or.inl (by simp [strLeChars, hcd, hdc, h])
          · exact Or.inr (by simp [strLeChars, hcd, hdc, h])

theorem strLeChars_trans :
    ∀ a b c, strLeChars a b = true → strLeChars b c = true →
      strLeChars a c = true := by
  intro a
  induction a with
  | nil => intro b c _ _; rfl
  | cons x xs ih =>
    intro b c hab hbc
    cases b with
    | nil => exact absurd hab (by simp [strLeChars])
    | cons y ys =>
      cases c with
      | nil => exact absurd hbc (by simp [strLeChars])
      | cons z zs =>
        simp only [strLeChars] at hab hbc ⊢
        by_cases hxy : x.toNat < y.toNat
        · by_cases hyz : y.toNat < z.toNat
          · have hxz : x.toNat < z.toNat := Nat.lt_trans hxy hyz
            rw [if_pos hxz]
          · by_cases hzy : z.toNat < y.toNat
            · rw [if_neg hyz, if_pos hzy] at hbc
              exact absurd hbc (by simp)
            · have hxz : x.toNat < z.toNat := by omega
              rw [if_pos hxz]
        · by_cases hyx : y.toNat < x.toNat
          · rw [if_neg hxy, if_pos hyx] at hab
            exact absurd hab (by simp)
          · rw [if_neg hxy, if_neg hyx] at hab
            by_cases hyz : y.toNat < z.toNat
            · have hxz : x.toNat < z.toNat := by omega
              rw [if_pos hxz]
            · by_cases hzy : z.toNat < y.toNat
              · rw [if_neg hyz, if_pos hzy] at hbc
                exact absurd hbc (by simp)
              · have h1 : ¬ x.toNat < z.toNat := by omega
                have h2 : ¬ z.toNat < x.toNat := by omega
                rw [if_neg h1, if_neg h2]
                rw [if_neg hyz, if_neg hzy] at hbc
                exact ih ys zs hab hbc

/-- `KoboExtractor.sort_results_by_time` (lines 343-375).  Python's
`sorted(l, key=f, reverse=b)` is the stable sort by `f`'s value
(descending keeps equal keys in input order too); every stable sorting
algorithm computes the same list, here `List.insertionSort` with the
relation that keeps the earlier element first on ties. -/
def sort_results_by_time (unsorted_results : List RawRec) (reverse : Bool) :
    Except Unit (List RawRec) :=
  if unsorted_results.all (fun r => (subTime r).isSome) then
    .ok (if reverse then
          List.insertionSort
            (fun a b => pyStrLe ((subTime b).getD "") ((subTime a).getD "") = true)
            unsorted_results
        else
          List.insertionSort
            (fun a b => pyStrLe ((subTime a).getD "") ((subTime b).getD "") = true)
            unsorted_results)
  else .error ()

/-! ## `label_result` (lines 378-612) -/

/-- One entry of `result_qn['choices']` (lines 540-544). -/
structure ChoiceOut where
  sequence : Nat
  label : Option String
  answer_code : Nat
  answer_label : String
deriving DecidableEq, Repr

/-- A labeled question record.  `sequence`/`choices` are absent (`none`)
in the unlabeled fallback; `answer_label` is an `Option` because a
`select_one` whose matched choice stores label `None` propagates that
`None` (line 520). -/
structure ResultQn where
  sequence : Option Nat
  label : String
  answer_code : String
  answer_label : Option String
  choices : Option (List (String × ChoiceOut))
deriving DecidableEq, Repr

/-- `unlabeled_question` (lines 486-491). -/
def unlabeled_question (question_code value : String) : ResultQn :=
  ⟨none, question_code, value, some value, none⟩

/-- Lines 495-501: walk `group_codes` down `questions['groups']`.
`.ok none` is the "cannot find this question" miss (line 499-501);
`.error` is the uncaught `KeyError` raised by `tmp_qn['groups']` when
the current node has no `'groups'` key at all (line 497). -/
def descend : Group → List String → Except Unit (Option Group)
  | g, [] => .ok (some g)
  | g, c :: rest =>
    match g.groups with
    | none => .error ()
    | some gs =>
      match dictGet gs (some c) with
      | some g2 => descend g2 rest
      | none => .ok none

/-- The concatenation loop of lines 529-531.  `.ok none` models the
caught `KeyError` (missing choice code, line 533); `.error` models the
uncaught `TypeError` of `str + None` when a found choice stores label
`None`. -/
def concatGo (bucket : ChoiceList) : String → List String → Except Unit (Option String)
  | acc, [] => .ok (some acc)
  | acc, c :: rest =>
    match dictGet bucket c with
    | none => .ok none
    | some info =>
      match info.label with
      | none => .error ()
      | some lbl => concatGo bucket (acc ++ lbl ++ ";") rest

/-- Lines 526-535 up to the `except KeyError` handler: when the split
value is empty the loop body never runs (so a missing list name is not
even touched); otherwise a missing list name is a caught `KeyError`. -/
def concatLabels (bucket? : Option ChoiceList) (codes : List String) :
    Except Unit (Option String) :=
  match codes with
  | [] => .ok (some "")
  | _ :: _ =>
    match bucket? with
    | none => .ok none
    | some bucket => concatGo bucket "" codes

/-- The unpack loop of lines 538-544 over `choice_lists[list_name]`,
accumulating `result_qn['choices']`.  `.error` models the uncaught
`KeyError` of `tmp_qn['choices'][choice_code]` (line 541) when the
question node has no `'choices'` dict or lacks the code. -/
def unpackGo (qchoices : Option (List (String × SubChoice))) (codes : List String) :
    List (String × ChoiceInfo) → List (String × ChoiceOut) →
    Except Unit (List (String × ChoiceOut))
  | [], acc => .ok acc
  | (ccode, cinfo) :: rest, acc =>
    match qchoices with
    | none => .error ()
    | some qcs =>
      match dictGet qcs ccode with
      | none => .error ()
      | some sub =>
        unpackGo qchoices codes rest
          (dictInsert acc ccode
            ⟨sub.sequence, cinfo.label,
             if codes.contains ccode then 1 else 0,
             if codes.contains ccode then "Yes" else "No"⟩)

/-- Lines 516-523: the `select_one` answer label.  The whole lookup
chain sits inside `try/except KeyError`, including `tmp_qn['list_name']`,
so every missing key falls back to the raw value; but a FOUND choice
contributes its stored label as-is, which may be `None`. -/
def selectOneAnswerLabel (q : Question) (choice_lists : ChoiceIndex)
    (value : String) : Option String :=
  match q.list_name with
  | none => some value
  | some ln =>
    match dictGet choice_lists ln with
    | none => some value
    | some bucket =>
      match dictGet bucket value with
      | none => some value
      | some info => info.label

/-- `label_question` (lines 485-548). -/
def labelQuestion (group_codes : List String) (question_code value : String)
    (questions : Group) (choice_lists : ChoiceIndex) (unpack : Bool) :
    Except Unit ResultQn :=
  match descend questions group_codes with
  | .error e => .error e
  | .ok none => .ok (unlabeled_question question_code value)
  | .ok (some g) =>
    match g.questions with
    | none => .ok (unlabeled_question question_code value)
    | some qs =>
      match dictGet qs question_code with
      | none => .ok (unlabeled_question question_code value)
      | some q =>
        match q.label with
        | none => .ok (unlabeled_question question_code value)
        | some lbl =>
          if q.type_ == "select_one" then
            .ok ⟨some q.sequence, lbl, value,
                 selectOneAnswerLabel q choice_lists value, none⟩
          else if q.type_ == "select_multiple" then
            -- line 525: `tmp_qn['list_name']` is OUTSIDE the handler.
            match q.list_name with
            | none => .error ()
            | some ln =>
              match concatLabels (dictGet choice_lists ln) (pySplit value) with
              | .error e => .error e
              | .ok albl? =>
                let albl := albl?.getD value
                if unpack then
                  -- line 539: `choice_lists[list_name]` outside any handler.
                  match dictGet choice_lists ln with
                  | none => .error ()
                  | some bucket =>
                    match unpackGo q.choices (pySplit value) bucket [] with
                    | .error e => .error e
                    | .ok couts =>
                      .ok ⟨some q.sequence, lbl, value, some albl, some couts⟩
                else .ok ⟨some q.sequence, lbl, value, some albl, none⟩
          else .ok ⟨some q.sequence, lbl, value, some value, none⟩

/-- A labeled `results` entry: a labeled question or a repeat group
(integer-indexed dict of labeled instances). -/
inductive RRes where
  | qn (r : ResultQn)
  | rep (l : List (Nat × List (String × RRes)))

/-- Python `list.remove(a)`: drop the first occurrence, `none` models
the `ValueError` when `a` is absent. -/
def pyRemove : List String → String → Option (List String)
  | [], _ => none
  | x :: xs, a => if x == a then some xs else (pyRemove xs a).map (x :: ·)

/-- The loop of lines 557-558: remove each outer group code in turn. -/
def removeOuter : List String → List String → Option (List String)
  | inner, [] => some inner
  | inner, oc :: rest =>
    match pyRemove inner oc with
    | none => none
    | some inner2 => removeOuter inner2 rest

/-- `l.pop()` plus the remaining list (line 565); `none` models the
`IndexError` on an empty list. -/
def splitLast : List α → Option (List α × α)
  | [] => none
  | [a] => some ([], a)
  | a :: b :: rest =>
    (splitLast (b :: rest)).map (fun p => (a :: p.1, p.2))

mutual

/-- `label_repeat_group` (lines 550-568); `i` is the running instance
index (starting at 0 from every call site). -/
def labelRepeatGroup (outer : List String) (l : List (List (String × RVal)))
    (questions : Group) (choice_lists : ChoiceIndex) (unpack : Bool) (i : Nat) :
    Except Unit (List (Nat × List (String × RRes))) :=
  match l with
  | [] => .ok []
  | inst :: rest =>
    match labelInstance outer inst questions choice_lists unpack with
    | .error e => .error e
    | .ok entry =>
      match labelRepeatGroup outer rest questions choice_lists unpack (i + 1) with
      | .error e => .error e
      | .ok tail => .ok ((i, entry) :: tail)
termination_by sizeOf l

/-- The inner loop of lines 555-566 over one `repeat_set`. -/
def labelInstance (outer : List String) (inst : List (String × RVal))
    (questions : Group) (choice_lists : ChoiceIndex) (unpack : Bool) :
    Except Unit (List (String × RRes)) :=
  match inst with
  | [] => .ok []
  | (k, v) :: rest =>
    match removeOuter (splitSlash k) outer with
    | none => .error ()
    | some inner =>
      match v with
      | .list sub =>
        match labelRepeatGroup (outer ++ inner) sub questions choice_lists unpack 0 with
        | .error e => .error e
        | .ok rg =>
          match labelInstance outer rest questions choice_lists unpack with
          | .error e => .error e
          | .ok tail => .ok ((joinSlash inner, .rep rg) :: tail)
      | .str s =>
        match splitLast inner with
        | none => .error ()
        | some (gcs, qc) =>
          match labelQuestion (outer ++ gcs) qc s questions choice_lists unpack with
          | .error e => .error e
          | .ok rq =>
            match labelInstance outer rest questions choice_lists unpack with
            | .error e => .error e
            | .ok tail => .ok ((joinSlash (gcs ++ [qc]), .qn rq) :: tail)
termination_by sizeOf inst

end

/-- The tuple `meta_keys_start` (lines 571-583). -/
def metaKeysStart : List String :=
  ["_", "meta/", "formhub/", "simserial", "phonenumber", "start", "end",
   "today", "username", "deviceid", "subscriberid"]

/-- `key.startswith(meta_keys_start)` (line 594): true when ANY of the
tuple entries is a leading substring of `key`. -/
def isMetaKey (k : String) : Bool :=
  metaKeysStart.any (fun p => strStarts p k)

/-- The partitioning loop of lines 585-607, accumulating `meta` and
`results`. -/
def labelResultLoop (choice_lists : ChoiceIndex) (questions : Group)
    (unpack : Bool) :
    List (String × RVal) → List (String × RVal) → List (String × RRes) →
    Except Unit (List (String × RVal) × List (String × RRes))
  | [], meta, results => .ok (meta, results)
  | (k, v) :: rest, meta, results =>
    if isMetaKey k then
      labelResultLoop choice_lists questions unpack rest (dictInsert meta k v) results
    else
      match v with
      | .list l =>
        match labelRepeatGroup (splitSlash k) l questions choice_lists unpack 0 with
        | .error e => .error e
        | .ok rg =>
          labelResultLoop choice_lists questions unpack rest meta
            (dictInsert results (joinSlash (splitSlash k)) (.rep rg))
      | .str s =>
        match splitLast (splitSlash k) with
        | none => .error ()  -- unreachable: `key.split('/')` is never empty
        | some (gcs, qc) =>
          match labelQuestion gcs qc s questions choice_lists unpack with
          | .error e => .error e
          | .ok rq =>
            labelResultLoop choice_lists questions unpack rest meta
              (dictInsert results k (.qn rq))

/-- `KoboExtractor.label_result` (lines 378-612). -/
def label_result (unlabeled_result : List (String × RVal))
    (choice_lists : ChoiceIndex) (questions : Group) (unpack_multiples : Bool) :
    Except Unit (List (String × RVal) × List (String × RRes)) :=
  labelResultLoop choice_lists questions unpack_multiples unlabeled_result [] []

/-! # Claims -/

/-! ## C1 -/

/-- C1: for a survey with no groups at all, `get_questions` returns a
root dict with NO `'groups'` key (it is created lazily, line 282-283);
a response key with a group path then makes `label_question` evaluate
`tmp_qn['groups']` (line 497), raising an uncaught `KeyError` instead
of returning the unlabeled fallback record the claim (and the spec's
"must never raise") requires.  Concretely: `questions = {}` (the result
of `get_questions` on an empty survey) and response `{'g/q': 'v'}`
raise, instead of yielding
`{'g/q': {label: 'q', answer_code: 'v', answer_label: 'v'}}`. -/
theorem C1_group_miss_raises_keyerror :
    get_questions ⟨[], []⟩ false = .ok emptyGroup ∧
    label_result [("g/q", RVal.str "v")] [] emptyGroup false = .error () ∧
    label_result [("g/q", RVal.str "v")] [] emptyGroup false ≠
      .ok ([], [("g/q", RRes.qn (unlabeled_question "q" "v"))]) := by
  refine ⟨rfl, rfl, ?_⟩
  intro h
  rw [show label_result [("g/q", RVal.str "v")] [] emptyGroup false
        = .error () from rfl] at h
  exact Except.noConfusion h

/-! ## C8 -/

/-- A survey element with neither `'name'` nor `'$autoname'` whose type
is none of the four group markers: such an element reaches the
`assert name` (line 304). -/
def BadElem (e : SurveyElem) : Prop :=
  pyName e = none ∧ e.type_ ≠ "begin_group" ∧ e.type_ ≠ "begin_repeat" ∧
  e.type_ ≠ "end_group" ∧ e.type_ ≠ "end_repeat"

instance (e : SurveyElem) : Decidable (BadElem e) := by
  unfold BadElem; infer_instance

theorem gqLoop_error_of_bad (chs : ChoiceIndex) (up : Bool) :
    ∀ (elems : List SurveyElem) (seq : Nat) (cur : Group)
      (stack : List (Group × Option String)),
      (∃ e ∈ elems, BadElem e) →
      gqLoop chs up elems seq cur stack = .error () := by
  intro elems
  induction elems with
  | nil =>
    rintro seq cur stack ⟨e, he, -⟩
    exact absurd he (List.not_mem_nil e)
  | cons e rest ih =>
    rintro seq cur stack ⟨e', he', hbad⟩
    show (if (e.type_ == "begin_group" || e.type_ == "begin_repeat") = true then _
          else if (e.type_ == "end_group" || e.type_ == "end_repeat") = true then _
          else _) = Except.error ()
    by_cases h1 : (e.type_ == "begin_group" || e.type_ == "begin_repeat") = true
    · rw [if_pos h1]
      apply ih
      refine ⟨e', ?_, hbad⟩
      rcases List.mem_cons.mp he' with rfl | h
      · exfalso
        rcases hbad with ⟨-, hb1, hb2, -⟩
        simp only [Bool.or_eq_true, beq_iff_eq] at h1
        tauto
      · exact h
    · rw [if_neg h1]
      by_cases h2 : (e.type_ == "end_group" || e.type_ == "end_repeat") = true
      · rw [if_pos h2]
        cases stack with
        | nil => rfl
        | cons p rest' =>
          apply ih
          refine ⟨e', ?_, hbad⟩
          rcases List.mem_cons.mp he' with rfl | h
          · exfalso
            rcases hbad with ⟨-, -, -, hb3, hb4⟩
            simp only [Bool.or_eq_true, beq_iff_eq] at h2
            tauto
          · exact h
      · rw [if_neg h2]
        rcases List.mem_cons.mp he' with rfl | hmem
        · rcases hbad with ⟨hn, -⟩
          rw [hn]
        · cases hname : pyName e with
          | none => rfl
          | some nm =>
            cases hbq : buildQuestion chs up e seq with
            | error u => cases u; rfl
            | ok p =>
              cases p with
              | mk q seq' => exact ih _ _ _ ⟨e', hmem, hbad⟩

/-- C8, counterexample: a `begin_group` element with neither `'name'`
nor `'$autoname'` is not a group-closer, yet `get_questions` does NOT
fail: Python uses `None` as the dict key (line 284) and succeeds.  So
quantifying over all non-closer elements, as the claim does, is wrong:
group-openers must be excluded too. -/
theorem C8_counterexample_nameless_begin_group :
    (pyName ⟨"begin_group", none, none, none, none, false⟩ = none ∧
     ("begin_group" : String) ≠ "end_group" ∧
     ("begin_group" : String) ≠ "end_repeat") ∧
    get_questions ⟨[⟨"begin_group", none, none, none, none, false⟩], []⟩ false =
      .ok (.mk none none none none
            (some [(none, .mk (some false) none (some 0) none none)])) := by
  exact ⟨⟨rfl, by decide, by decide⟩, rfl⟩

/-- C8, amended: for every survey element that has neither a `'name'`
nor a `'$autoname'` field and whose type is neither a group-opener
(`begin_group`/`begin_repeat`) nor a group-closer
(`end_group`/`end_repeat`), `get_questions` fails with an unrecoverable
error propagated to the caller; it does not produce a degraded schema
for such input. -/
theorem C8_nameless_question_is_fatal (asset : Asset) (unpack : Bool)
    (h : ∃ e ∈ asset.survey, BadElem e) :
    get_questions asset unpack = .error () :=
  gqLoop_error_of_bad _ _ _ _ _ _ h

/-- Witness for C8's amended theorem at a one-element survey. -/
theorem C8_nameless_question_is_fatal_witness :
    (∃ e ∈ [(⟨"text", none, none, none, none, false⟩ : SurveyElem)], BadElem e) ∧
    get_questions ⟨[⟨"text", none, none, none, none, false⟩], []⟩ false = .error () := by
  have h : ∃ e ∈ [(⟨"text", none, none, none, none, false⟩ : SurveyElem)], BadElem e :=
    ⟨_, List.mem_singleton_self _, by decide⟩
  exact ⟨h, C8_nameless_question_is_fatal _ _ h⟩

/-! ## C10 -/

/-- C10: a resolvable, labeled `select_multiple` question whose node
carries no `'choices'` dict (as `get_questions` builds it when
`unpack_multiples=False`): labeling it with `unpack_multiples=True`
raises — `tmp_qn['choices'][choice_code]` (line 541) sits outside every
`try/except` in the labeling path. -/
theorem C10_unpack_without_choices_raises
    (gcs : List String) (qc value : String) (questions : Group)
    (cl : ChoiceIndex) (g : Group) (qs : List (String × Question))
    (q : Question) (lbl ln : String) (bucket : ChoiceList)
    (hdesc : descend questions gcs = .ok (some g))
    (hqs : g.questions = some qs)
    (hq : dictGet qs qc = some q)
    (hlbl : q.label = some lbl)
    (hty : q.type_ = "select_multiple")
    (hln : q.list_name = some ln)
    (hbucket : dictGet cl ln = some bucket)
    (hne : bucket ≠ [])
    (hchoices : q.choices = none) :
    labelQuestion gcs qc value questions cl true = .error () := by
  cases bucket with
  | nil => exact absurd rfl hne
  | cons hd tl =>
    cases hd with
    | mk c0 i0 =>
      unfold labelQuestion
      cases hcl : concatLabels (dictGet cl ln) (pySplit value) with
      | error u =>
        cases u
        simp only [hdesc, hqs, hq, hlbl, hty, hln, hcl]
        rfl
      | ok albl? =>
        rw [hbucket] at hcl
        simp only [hdesc, hqs, hq, hlbl, hty, hln, hbucket, hchoices, hcl]
        rfl

/-- Witness for C10: a tree actually built by `get_questions` with
`unpack_multiples=False`, then labeled with `unpack_multiples=True`. -/
theorem C10_unpack_without_choices_raises_witness :
    get_questions ⟨[⟨"select_multiple", some "q", none, some "Q", some "L", false⟩],
                   [⟨"L", "a", some "A"⟩]⟩ false =
      .ok (.mk none none none
            (some [("q", ⟨"select_multiple", 0, some "Q", some "L", none, none⟩)]) none) ∧
    labelQuestion [] "q" "a"
      (.mk none none none
        (some [("q", ⟨"select_multiple", 0, some "Q", some "L", none, none⟩)]) none)
      (get_choices [⟨"L", "a", some "A"⟩]) true = .error () := by
  refine ⟨rfl, ?_⟩
  exact C10_unpack_without_choices_raises [] "q" "a" _ _ _ _
    ⟨"select_multiple", 0, some "Q", some "L", none, none⟩ "Q" "L"
    [("a", ⟨some "A", 0⟩)] rfl rfl rfl rfl rfl rfl rfl (by decide) rfl

/-! ## C5 -/

/-- C5, counterexample: a `select_one` whose raw value matches a choice
that exists but stores label `None` (a choice defined without a
`'label'` key, lines 179-182): `choice_lists[list_name][value]['label']`
succeeds and returns `None`, so `answer_label` becomes `None` — NOT the
raw value the claim requires for "a choice whose label is missing". -/
theorem C5_counterexample_none_label :
    labelQuestion [] "q" "x"
      (.mk none none none
        (some [("q", ⟨"select_one", 1, some "Q", some "L", none, none⟩)]) none)
      [("L", [("x", ⟨none, 0⟩)])] false =
      .ok ⟨some 1, "Q", "x", none, none⟩ ∧
    (ResultQn.answer_label ⟨some 1, "Q", "x", none, none⟩ ≠ some "x") := by
  exact ⟨rfl, by decide⟩

/-- C5, amended: for every resolvable `select_one` question with a
labeled schema entry, labeling never raises and produces
`selectOneAnswerLabel`: a missing list, or a missing choice code, falls
back to the raw value; a FOUND choice contributes its stored label
as-is (which is `None` when the choice has no label, rather than the
raw value). -/
theorem C5_select_one_resolution
    (gcs : List String) (qc value : String) (questions : Group)
    (cl : ChoiceIndex) (unpack : Bool) (g : Group)
    (qs : List (String × Question)) (q : Question) (lbl : String)
    (hdesc : descend questions gcs = .ok (some g))
    (hqs : g.questions = some qs)
    (hq : dictGet qs qc = some q)
    (hlbl : q.label = some lbl)
    (hty : q.type_ = "select_one") :
    labelQuestion gcs qc value questions cl unpack =
      .ok ⟨some q.sequence, lbl, value, selectOneAnswerLabel q cl value, none⟩ ∧
    (∀ ln bucket info, q.list_name = some ln → dictGet cl ln = some bucket →
      dictGet bucket value = some info →
      selectOneAnswerLabel q cl value = info.label) ∧
    (q.list_name = none → selectOneAnswerLabel q cl value = some value) ∧
    (∀ ln, q.list_name = some ln → dictGet cl ln = none →
      selectOneAnswerLabel q cl value = some value) ∧
    (∀ ln bucket, q.list_name = some ln → dictGet cl ln = some bucket →
      dictGet bucket value = none →
      selectOneAnswerLabel q cl value = some value) := by
  refine ⟨?_, ?_, ?_, ?_, ?_⟩
  · unfold labelQuestion
    simp only [hdesc, hqs, hq, hlbl, hty]
    rfl
  · intro ln bucket info h1 h2 h3
    unfold selectOneAnswerLabel
    simp only [h1, h2, h3]
  · intro h1
    unfold selectOneAnswerLabel
    simp only [h1]
  · intro ln h1 h2
    unfold selectOneAnswerLabel
    simp only [h1, h2]
  · intro ln bucket h1 h2 h3
    unfold selectOneAnswerLabel
    simp only [h1, h2, h3]

/-- Witness for C5's amended theorem: a fully-resolvable `select_one`
with a labeled choice. -/
theorem C5_select_one_resolution_witness :
    labelQuestion [] "q" "x"
      (.mk none none none
        (some [("q", ⟨"select_one", 1, some "Pick", some "L", none, none⟩)]) none)
      [("L", [("x", ⟨some "X label", 0⟩)])] false =
      .ok ⟨some 1, "Pick", "x", some "X label", none⟩ := by
  have h := (C5_select_one_resolution [] "q" "x"
      (.mk none none none
        (some [("q", ⟨"select_one", 1, some "Pick", some "L", none, none⟩)]) none)
      [("L", [("x", ⟨some "X label", 0⟩)])] false _ _
      ⟨"select_one", 1, some "Pick", some "L", none, none⟩ "Pick"
      rfl rfl rfl rfl rfl).1
  rw [h]
  rfl

/-! ## C9 -/

/-- Inserting `x` into any list keeps a tie-closed Boolean filter
stable: when `p x` holds, `x` lands in front of every other selected
element (`orderedInsert` never passes an element `x` is tied with). -/
theorem filter_orderedInsert {α : Type} (r : α → α → Prop) [DecidableRel r]
    (p : α → Bool) (x : α) (l : List α)
    (hp : ∀ b, p x = true → p b = true → r x b) :
    List.filter p (List.orderedInsert r x l) =
      if p x then x :: List.filter p l else List.filter p l := by
  induction l with
  | nil =>
    cases hpx : p x with
    | false => simp [List.orderedInsert, List.filter, hpx]
    | true => simp [List.orderedInsert, List.filter, hpx]
  | cons y ys ih =>
    by_cases hxy : r x y
    · cases hpx : p x with
      | false => simp [List.orderedInsert, if_pos hxy, List.filter_cons, hpx]
      | true => simp [List.orderedInsert, if_pos hxy, List.filter_cons, hpx]
    · have step : List.orderedInsert r x (y :: ys) = y :: List.orderedInsert r x ys := by
        simp [List.orderedInsert, if_neg hxy]
      rw [step]
      cases hpx : p x with
      | false =>
        rw [hpx] at ih
        simp only [List.filter_cons, ih]
        simp
      | true =>
        have hpy : p y = false := by
          cases hpy : p y with
          | false => rfl
          | true => exact absurd (hp y hpx hpy) hxy
        rw [hpx] at ih
        simp only [List.filter_cons, hpy, ih]
        simp

/-- An insertion sort (a stable sort) leaves the subsequence selected
by any tie-closed Boolean predicate untouched. -/
theorem filter_insertionSort {α : Type} (r : α → α → Prop) [DecidableRel r]
    (p : α → Bool) (hp : ∀ a b, p a = true → p b = true → r a b) (l : List α) :
    List.filter p (List.insertionSort r l) = List.filter p l := by
  induction l with
  | nil => rfl
  | cons x xs ih =>
    rw [List.insertionSort, filter_orderedInsert r p x _ (fun b => hp x b)]
    cases hpx : p x with
    | false => simp only [hpx, List.filter_cons, ih]
    | true => simp only [hpx, List.filter_cons, ih]

/-- A stable sort (here `List.insertionSort` with a transitive, total
relation) is sorted, a permutation of the input, and preserves the
sublist of elements any Boolean predicate selects when those elements
are pairwise tied under the relation. -/
theorem stableSortSpec {α : Type} (r : α → α → Prop) [DecidableRel r]
    (htrans : ∀ a b c, r a b → r b c → r a c)
    (htotal : ∀ a b, r a b ∨ r b a)
    (l : List α) (p : α → Bool) (hp : ∀ a b, p a = true → p b = true → r a b) :
    List.Pairwise r (List.insertionSort r l) ∧
    (List.insertionSort r l).Perm l ∧
    List.filter p (List.insertionSort r l) = List.filter p l := by
  haveI : IsTotal α r := ⟨htotal⟩
  haveI : IsTrans α r := ⟨fun a b c => htrans a b c⟩
  exact ⟨List.sorted_insertionSort r l, List.perm_insertionSort r l,
         filter_insertionSort r p hp l⟩

/-- C9: on records that all carry a string `_submission_time` field,
`sort_results_by_time` succeeds and returns a permutation of the input
stably sorted by that field's string order — ascending by default,
descending with `reverse=True` — where records with equal timestamps
keep their relative input order in both directions (the filter at any
fixed timestamp is unchanged).  The input list itself is untouched
(the embedding is a pure function of it). -/
theorem C9_sort_results_by_time (l : List RawRec) (reverse : Bool)
    (h : ∀ r ∈ l, (subTime r).isSome = true) :
    ∃ out, sort_results_by_time l reverse = .ok out ∧
      out.Perm l ∧
      (reverse = false →
        List.Pairwise
          (fun a b => pyStrLe ((subTime a).getD "") ((subTime b).getD "") = true) out) ∧
      (reverse = true →
        List.Pairwise
          (fun a b => pyStrLe ((subTime b).getD "") ((subTime a).getD "") = true) out) ∧
      (∀ t : String,
        List.filter (fun r => (subTime r).getD "" == t) out =
        List.filter (fun r => (subTime r).getD "" == t) l) := by
  have hall : l.all (fun r => (subTime r).isSome) = true :=
    List.all_eq_true.mpr h
  cases reverse with
  | false =>
    have spec := fun t => stableSortSpec
      (fun a b : RawRec => pyStrLe ((subTime a).getD "") ((subTime b).getD "") = true)
      (fun a b c hab hbc => strLeChars_trans _ _ _ hab hbc)
      (fun a b => strLeChars_total _ _)
      l (fun r => (subTime r).getD "" == t)
      (fun a b ha hb => by
        have ha' : (subTime a).getD "" = t := eq_of_beq ha
        have hb' : (subTime b).getD "" = t := eq_of_beq hb
        show pyStrLe ((subTime a).getD "") ((subTime b).getD "") = true
        rw [ha', hb']
        exact strLeChars_refl _)
    refine ⟨List.insertionSort
      (fun a b : RawRec => pyStrLe ((subTime a).getD "") ((subTime b).getD "") = true) l,
      ?_, ?_, ?_, ?_, ?_⟩
    · unfold sort_results_by_time
      rw [if_pos hall]
      rfl
    · exact ((spec "").2.1)
    · intro
      exact (spec "").1
    · intro hfalse
      exact absurd hfalse (by decide)
    · intro t
      exact (spec t).2.2
  | true =>
    have spec := fun t => stableSortSpec
      (fun a b : RawRec => pyStrLe ((subTime b).getD "") ((subTime a).getD "") = true)
      (fun a b c hab hbc => strLeChars_trans _ _ _ hbc hab)
      (fun a b => (strLeChars_total _ _).symm)
      l (fun r => (subTime r).getD "" == t)
      (fun a b ha hb => by
        have ha' : (subTime a).getD "" = t := eq_of_beq ha
        have hb' : (subTime b).getD "" = t := eq_of_beq hb
        show pyStrLe ((subTime b).getD "") ((subTime a).getD "") = true
        rw [ha', hb']
        exact strLeChars_refl _)
    refine ⟨List.insertionSort
      (fun a b : RawRec => pyStrLe ((subTime b).getD "") ((subTime a).getD "") = true) l,
      ?_, ?_, ?_, ?_, ?_⟩
    · unfold sort_results_by_time
      rw [if_pos hall]
      rfl
    · exact ((spec "").2.1)
    · intro htrue
      exact absurd htrue (by decide)
    · intro
      exact (spec "").1
    · intro t
      exact (spec t).2.2

/-- Witness for C9 at the spec's example: two out-of-order timestamps,
ascending order puts 2020-01-01 first. -/
theorem C9_sort_results_by_time_witness :
    (∀ r ∈ [[("_submission_time", RVal.str "2020-01-02T00:00:00")],
            [("_submission_time", RVal.str "2020-01-01T00:00:00")]],
       (subTime r).isSome = true) ∧
    sort_results_by_time
      [[("_submission_time", RVal.str "2020-01-02T00:00:00")],
       [("_submission_time", RVal.str "2020-01-01T00:00:00")]] false =
      .ok [[("_submission_time", RVal.str "2020-01-01T00:00:00")],
           [("_submission_time", RVal.str "2020-01-02T00:00:00")]] ∧
    (∃ out, sort_results_by_time
        [[("_submission_time", RVal.str "2020-01-02T00:00:00")],
         [("_submission_time", RVal.str "2020-01-01T00:00:00")]] false = .ok out ∧
      out.Perm [[("_submission_time", RVal.str "2020-01-02T00:00:00")],
                [("_submission_time", RVal.str "2020-01-01T00:00:00")]] ∧
      (false = false →
        List.Pairwise
          (fun a b => pyStrLe ((subTime a).getD "") ((subTime b).getD "") = true) out) ∧
      (false = true →
        List.Pairwise
          (fun a b => pyStrLe ((subTime b).getD "") ((subTime a).getD "") = true) out) ∧
      (∀ t : String,
        List.filter (fun r => (subTime r).getD "" == t) out =
        List.filter (fun r => (subTime r).getD "" == t)
          [[("_submission_time", RVal.str "2020-01-02T00:00:00")],
           [("_submission_time", RVal.str "2020-01-01T00:00:00")]])) := by
  have h : ∀ r ∈ [[("_submission_time", RVal.str "2020-01-02T00:00:00")],
            [("_submission_time", RVal.str "2020-01-01T00:00:00")]],
      (subTime r).isSome = true := by
    intro r hr
    rcases List.mem_cons.mp hr with rfl | hr
    · rfl
    · rcases List.mem_cons.mp hr with rfl | hr
      · rfl
      · exact absurd hr (List.not_mem_nil r)
  exact ⟨h, rfl, C9_sort_results_by_time _ false h⟩

/-! ## C7 -/

theorem dictGet_dictInsert_self [BEq α] [LawfulBEq α] (d : List (α × β)) (k : α) (v : β) :
    dictGet (dictInsert d k v) k = some v := by
  induction d with
  | nil => simp [dictInsert, dictGet]
  | cons p rest ih =>
    cases p with
    | mk k' v' =>
      by_cases h : k' == k
      · simp [dictInsert, dictGet, h]
      · simp only [dictInsert, dictGet, h, Bool.false_eq_true, if_false]
        exact ih

theorem dictGet_dictInsert_ne [BEq α] [LawfulBEq α] (d : List (α × β)) (k k' : α) (v : β)
    (h : k' ≠ k) : dictGet (dictInsert d k v) k' = dictGet d k' := by
  induction d with
  | nil =>
    have hkk : ¬ (k == k') = true := fun hh => h (eq_of_beq hh).symm
    simp [dictInsert, dictGet, hkk]
  | cons p rest ih =>
    cases p with
    | mk k0 v0 =>
      by_cases h0 : k0 == k
      · have hkk : ¬ (k == k') = true := fun hh => h (eq_of_beq hh).symm
        have hkk0 : ¬ (k0 == k') = true := fun hh => by
          rw [eq_of_beq h0] at hh
          exact h (eq_of_beq hh).symm
        simp [dictInsert, dictGet, h0, hkk, hkk0]
      · simp only [dictInsert, h0, Bool.false_eq_true, if_false, dictGet]
        by_cases h1 : k0 == k'
        · simp [h1]
        · simp only [h1, Bool.false_eq_true, if_false]
          exact ih

/-- Keys of a Python dict after `d[k] = v`: unchanged when `k` was
present, appended otherwise. -/
theorem map_fst_dictInsert [BEq α] [LawfulBEq α] (d : List (α × β)) (k : α) (v : β) :
    (dictInsert d k v).map Prod.fst =
      if (dictGet d k).isSome then d.map Prod.fst else d.map Prod.fst ++ [k] := by
  induction d with
  | nil => simp [dictInsert, dictGet]
  | cons p rest ih =>
    cases p with
    | mk k0 v0 =>
      by_cases h0 : k0 == k
      · simp [dictInsert, dictGet, h0, eq_of_beq h0]
      · simp only [dictInsert, dictGet, h0, Bool.false_eq_true, if_false,
                   List.map_cons, ih]
        by_cases h1 : (dictGet rest k).isSome
        · rw [if_pos h1, if_pos h1]
        · rw [if_neg h1, if_neg h1]
          rfl

/-- List names in first-sight order (`acc` holds those already seen). -/
def firstSight : List String → List String → List String
  | acc, [] => acc
  | acc, x :: xs => firstSight (if acc.contains x then acc else acc ++ [x]) xs

/-- Spec-side description of "the later entry wins": the LAST entry of
`cs` whose list name and code match, together with its absolute input
position (positions count from `i`). -/
def lastMatchFrom : List ChoiceElem → Nat → String → String → Option (Nat × ChoiceElem)
  | [], _, _, _ => none
  | c :: rest, i, l, n =>
    match lastMatchFrom rest (i + 1) l n with
    | some p => some p
    | none => if c.list_name = l ∧ c.name = n then some (i, c) else none

/-- Two-level lookup in a ChoiceIndex. -/
def lookup2 (acc : ChoiceIndex) (l n : String) : Option ChoiceInfo :=
  match dictGet acc l with
  | none => none
  | some b => dictGet b n

theorem contains_iff_dictGet_isSome (d : ChoiceIndex) (k : String) :
    (d.map Prod.fst).contains k = (dictGet d k).isSome := by
  induction d with
  | nil => rfl
  | cons p rest ih =>
    cases p with
    | mk k0 v0 =>
      by_cases h0 : k0 == k
      · simp [dictGet, h0, eq_of_beq h0]
      · have h0' : ¬ (k == k0) = true := by
          intro hc
          exact h0 (by simpa using (eq_of_beq hc).symm)
        simp only [List.map_cons, List.contains_cons, h0', Bool.false_or,
                   dictGet, h0, Bool.false_eq_true, if_false]
        exact ih

/-- One unfolding of the `get_choices` loop (lines 176-187). -/
theorem getChoicesLoop_cons (c : ChoiceElem) (rest : List ChoiceElem)
    (seq : Nat) (acc : ChoiceIndex) :
    getChoicesLoop (c :: rest) seq acc =
      getChoicesLoop rest (seq + 1)
        (dictInsert
          (if (dictGet acc c.list_name).isSome then acc
           else dictInsert acc c.list_name [])
          c.list_name
          (dictInsert
            ((dictGet (if (dictGet acc c.list_name).isSome then acc
                       else dictInsert acc c.list_name []) c.list_name).getD [])
            c.name ⟨c.label, seq⟩)) := rfl

theorem map_fst_step (acc : ChoiceIndex) (c : ChoiceElem) (seq : Nat) :
    (dictInsert
      (if (dictGet acc c.list_name).isSome then acc
       else dictInsert acc c.list_name [])
      c.list_name
      (dictInsert
        ((dictGet (if (dictGet acc c.list_name).isSome then acc
                   else dictInsert acc c.list_name []) c.list_name).getD [])
        c.name ⟨c.label, seq⟩)).map Prod.fst =
    if (acc.map Prod.fst).contains c.list_name then acc.map Prod.fst
    else acc.map Prod.fst ++ [c.list_name] := by
  rw [contains_iff_dictGet_isSome]
  by_cases h : (dictGet acc c.list_name).isSome
  · simp only [if_pos h]
    rw [map_fst_dictInsert, if_pos h]
  · simp only [if_neg h]
    have h2 : (dictGet (dictInsert acc c.list_name ([] : ChoiceList))
                c.list_name).isSome := by
      rw [dictGet_dictInsert_self]
      rfl
    rw [map_fst_dictInsert, if_pos h2, map_fst_dictInsert, if_neg h]

theorem lookup2_step (acc : ChoiceIndex) (c : ChoiceElem) (seq : Nat) (l n : String) :
    lookup2
      (dictInsert
        (if (dictGet acc c.list_name).isSome then acc
         else dictInsert acc c.list_name [])
        c.list_name
        (dictInsert
          ((dictGet (if (dictGet acc c.list_name).isSome then acc
                     else dictInsert acc c.list_name []) c.list_name).getD [])
          c.name ⟨c.label, seq⟩)) l n =
    if c.list_name = l ∧ c.name = n then some ⟨c.label, seq⟩ else lookup2 acc l n := by
  by_cases hm : c.list_name = l ∧ c.name = n
  · obtain ⟨hl, hn⟩ := hm
    subst hl
    subst hn
    rw [if_pos (And.intro rfl rfl)]
    simp only [lookup2, dictGet_dictInsert_self]
  · rw [if_neg hm]
    by_cases hl : c.list_name = l
    · subst hl
      have hn : ¬ c.name = n := fun hh => hm ⟨rfl, hh⟩
      have hne := dictGet_dictInsert_ne
        ((dictGet (if (dictGet acc c.list_name).isSome then acc
                   else dictInsert acc c.list_name []) c.list_name).getD [])
        c.name n (⟨c.label, seq⟩ : ChoiceInfo) (fun hh => hn hh.symm)
      simp only [lookup2, dictGet_dictInsert_self, hne]
      by_cases h : (dictGet acc c.list_name).isSome
      · obtain ⟨b, hb⟩ := Option.isSome_iff_exists.mp h
        simp [hb]
      · simp only [if_neg h, dictGet_dictInsert_self, Option.getD_some]
        have hnone : dictGet acc c.list_name = none := by
          cases hacc : dictGet acc c.list_name with
          | none => rfl
          | some b => rw [hacc] at h; exact absurd rfl h
        rw [hnone]
        rfl
    · have hne1 := fun (d : ChoiceIndex) (v : ChoiceList) =>
        dictGet_dictInsert_ne d c.list_name l v (fun hh => hl hh.symm)
      simp only [lookup2, hne1]
      by_cases h : (dictGet acc c.list_name).isSome
      · simp only [if_pos h]
      · simp only [if_neg h, hne1]

theorem getChoicesLoop_map_fst (cs : List ChoiceElem) :
    ∀ (seq : Nat) (acc : ChoiceIndex),
      (getChoicesLoop cs seq acc).map Prod.fst =
        firstSight (acc.map Prod.fst) (cs.map ChoiceElem.list_name) := by
  induction cs with
  | nil => intro seq acc; rfl
  | cons c rest ih =>
    intro seq acc
    rw [getChoicesLoop_cons, ih, map_fst_step]
    rfl

theorem getChoicesLoop_lookup2 (cs : List ChoiceElem) :
    ∀ (seq : Nat) (acc : ChoiceIndex) (l n : String),
      lookup2 (getChoicesLoop cs seq acc) l n =
        match lastMatchFrom cs seq l n with
        | some p => some ⟨p.2.label, p.1⟩
        | none => lookup2 acc l n := by
  induction cs with
  | nil => intro seq acc l n; rfl
  | cons c rest ih =>
    intro seq acc l n
    rw [getChoicesLoop_cons, ih, lookup2_step]
    cases hrest : lastMatchFrom rest (seq + 1) l n with
    | some p => simp [lastMatchFrom, hrest]
    | none =>
      simp only [lastMatchFrom, hrest]
      by_cases hm : c.list_name = l ∧ c.name = n
      · rw [if_pos hm, if_pos hm]
      · rw [if_neg hm, if_neg hm]

/-- C7: `get_choices` iterates once in input order; the list-name
buckets appear in first-sight order; looking any (list name, code) pair
up yields exactly the record of the LAST input entry carrying that pair
(so an earlier duplicate is silently overwritten), with the label
stored as-is (None permitted) and with `sequence` equal to that entry's
absolute input position — the value of a single global counter that
starts at 0 and increments once per entry, independent of list-name
grouping (hence all stored sequence numbers are unique and increasing
in input order). -/
theorem C7_get_choices_index (cs : List ChoiceElem) :
    (get_choices cs).map Prod.fst = firstSight [] (cs.map ChoiceElem.list_name) ∧
    ∀ l n, lookup2 (get_choices cs) l n =
      match lastMatchFrom cs 0 l n with
      | some p => some ⟨p.2.label, p.1⟩
      | none => none := by
  constructor
  · exact getChoicesLoop_map_fst cs 0 []
  · intro l n
    rw [show get_choices cs = getChoicesLoop cs 0 [] from rfl,
        getChoicesLoop_lookup2 cs 0 [] l n]
    cases lastMatchFrom cs 0 l n <;> rfl

/-! ## C6 -/

theorem splitSlashChars_ne_nil : ∀ cs : List Char, splitSlashChars cs ≠ [] := by
  intro cs
  cases cs with
  | nil => simp [splitSlashChars]
  | cons c cs =>
    simp only [splitSlashChars]
    by_cases hc : c = '/'
    · simp [hc]
    · simp only [hc, if_false]
      cases h : splitSlashChars cs with
      | nil => simp
      | cons hd tl => simp

/-- Inverse of `splitSlashChars`: `'/'.join` at the character level. -/
def joinSlashChars : List (List Char) → List Char
  | [] => []
  | [s] => s
  | s :: rest => s ++ '/' :: joinSlashChars rest

theorem joinSlashChars_splitSlashChars :
    ∀ cs : List Char, joinSlashChars (splitSlashChars cs) = cs := by
  intro cs
  induction cs with
  | nil => rfl
  | cons c cs ih =>
    by_cases hc : c = '/'
    · subst hc
      show joinSlashChars ([] :: splitSlashChars cs) = _
      cases h : splitSlashChars cs with
      | nil => exact absurd h (splitSlashChars_ne_nil cs)
      | cons hd tl =>
        rw [h] at ih
        show [] ++ '/' :: joinSlashChars (hd :: tl) = '/' :: cs
        rw [List.nil_append, ih]
    · cases h : splitSlashChars cs with
      | nil => exact absurd h (splitSlashChars_ne_nil cs)
      | cons hd tl =>
        rw [h] at ih
        have hstep : splitSlashChars (c :: cs) = (c :: hd) :: tl := by
          simp only [splitSlashChars, hc, if_false, h]
        rw [hstep]
        cases tl with
        | nil =>
          show c :: hd = c :: cs
          have hhd : hd = cs := by simpa [joinSlashChars] using ih
          rw [hhd]
        | cons t1 ts =>
          show (c :: hd) ++ '/' :: joinSlashChars (t1 :: ts) = c :: cs
          have ih2 : hd ++ '/' :: joinSlashChars (t1 :: ts) = cs := ih
          rw [List.cons_append, ih2]

theorem joinSlash_map_mk :
    ∀ l : List (List Char),
      joinSlash (l.map String.mk) = String.mk (joinSlashChars l) := by
  intro l
  induction l with
  | nil => rfl
  | cons s rest ih =>
    cases rest with
    | nil => rfl
    | cons t ts =>
      show String.mk s ++ "/" ++ joinSlash ((t :: ts).map String.mk) =
        String.mk (s ++ '/' :: joinSlashChars (t :: ts))
      rw [ih]
      show String.mk ((s ++ ['/']) ++ joinSlashChars (t :: ts)) = _
      rw [List.append_assoc]
      rfl

/-- `'/'.join(key.split('/')) == key`: the repeat-group branch of
`label_result` (line 601) stores the entry under the original key. -/
theorem joinSlash_splitSlash (k : String) : joinSlash (splitSlash k) = k := by
  rw [show splitSlash k = (splitSlashChars k.data).map String.mk from rfl,
      joinSlash_map_mk, joinSlashChars_splitSlashChars]

theorem dictInsert_of_fresh [BEq α] [LawfulBEq α] (d : List (α × β)) (k : α) (v : β)
    (h : ∀ p ∈ d, p.1 ≠ k) : dictInsert d k v = d ++ [(k, v)] := by
  induction d with
  | nil => rfl
  | cons p rest ih =>
    cases p with
    | mk k0 v0 =>
      have hk0 : ¬ (k0 == k) = true := by
        intro hc
        exact h (k0, v0) (List.mem_cons_self _ _) (eq_of_beq hc)
      simp only [dictInsert, hk0, Bool.false_eq_true, if_false, List.cons_append]
      rw [ih (fun p hp => h p (List.mem_cons_of_mem _ hp))]

theorem splitLast_isSome_of_ne_nil : ∀ l : List α, l ≠ [] → (splitLast l).isSome := by
  intro l
  cases l with
  | nil => intro h; exact absurd rfl h
  | cons a rest =>
    intro _
    cases rest with
    | nil => rfl
    | cons b rest2 =>
      have := splitLast_isSome_of_ne_nil (b :: rest2) (by simp)
      simp only [splitLast]
      cases hs : splitLast (b :: rest2) with
      | none => rw [hs] at this; exact absurd this (by simp)
      | some p => rfl

theorem splitSlash_ne_nil (k : String) : splitSlash k ≠ [] := by
  intro h
  rcases hs : splitSlashChars k.data with _ | ⟨hd, tl⟩
  · exact splitSlashChars_ne_nil k.data hs
  · rw [show splitSlash k = (splitSlashChars k.data).map String.mk from rfl, hs] at h
    simp at h

theorem labelResultLoop_partition (cl : ChoiceIndex) (questions : Group) (unpack : Bool) :
    ∀ (input metaAcc : List (String × RVal)) (resAcc : List (String × RRes))
      (meta : List (String × RVal)) (results : List (String × RRes)),
      (∀ k ∈ input.map Prod.fst, ∀ p ∈ metaAcc, p.1 ≠ k) →
      (∀ k ∈ input.map Prod.fst, ∀ p ∈ resAcc, p.1 ≠ k) →
      (input.map Prod.fst).Nodup →
      labelResultLoop cl questions unpack input metaAcc resAcc = .ok (meta, results) →
      meta = metaAcc ++ input.filter (fun p => isMetaKey p.1) ∧
      results.map Prod.fst = resAcc.map Prod.fst ++
        (input.filter (fun p => !isMetaKey p.1)).map Prod.fst := by
  intro input
  induction input with
  | nil =>
    intro metaAcc resAcc meta results _ _ _ h
    have h2 := Except.ok.inj h
    have hm : metaAcc = meta := congrArg Prod.fst h2
    have hres : resAcc = results := congrArg Prod.snd h2
    simp [← hm, ← hres]
  | cons kv rest ih =>
    rcases kv with ⟨k, v⟩
    intro metaAcc resAcc meta results hm hr hnd hloop
    have hkmem : k ∈ ((k, v) :: rest).map Prod.fst := by simp
    have hknotrest : ∀ k2 ∈ rest.map Prod.fst, k2 ≠ k := by
      intro k2 hk2 hc
      subst hc
      exact (List.nodup_cons.mp (by simpa using hnd)).1 hk2
    have hndrest : (rest.map Prod.fst).Nodup := (List.nodup_cons.mp (by simpa using hnd)).2
    by_cases hmk : isMetaKey k
    · have hstep : labelResultLoop cl questions unpack ((k, v) :: rest) metaAcc resAcc
          = labelResultLoop cl questions unpack rest (dictInsert metaAcc k v) resAcc := by
        simp [labelResultLoop, hmk]
      rw [hstep, dictInsert_of_fresh metaAcc k v (hm k hkmem)] at hloop
      have hm2 : ∀ k2 ∈ rest.map Prod.fst, ∀ p ∈ metaAcc ++ [(k, v)], p.1 ≠ k2 := by
        intro k2 hk2 p hp
        rcases List.mem_append.mp hp with hpl | hpr
        · exact hm k2 (by simp [hk2]) p hpl
        · rcases List.mem_singleton.mp hpr with rfl
          exact fun hc => hknotrest k2 hk2 hc.symm
      have hr2 : ∀ k2 ∈ rest.map Prod.fst, ∀ p ∈ resAcc, p.1 ≠ k2 := by
        intro k2 hk2 p hp
        exact hr k2 (by simp [hk2]) p hp
      obtain ⟨h1, h2⟩ := ih _ _ _ _ hm2 hr2 hndrest hloop
      constructor
      · rw [h1, List.filter_cons, if_pos (by simpa using hmk), List.append_assoc]
        rfl
      · rw [h2, List.filter_cons, if_neg (by simp [hmk])]
    · cases v with
      | list l =>
        cases hrg : labelRepeatGroup (splitSlash k) l questions cl unpack 0 with
        | error e =>
          have hbad : labelResultLoop cl questions unpack ((k, .list l) :: rest) metaAcc resAcc
              = .error e := by
            simp [labelResultLoop, hmk, hrg]
          rw [hbad] at hloop
          exact Except.noConfusion hloop
        | ok rg =>
          have hstep : labelResultLoop cl questions unpack ((k, .list l) :: rest) metaAcc resAcc
              = labelResultLoop cl questions unpack rest metaAcc
                  (dictInsert resAcc (joinSlash (splitSlash k)) (.rep rg)) := by
            simp [labelResultLoop, hmk, hrg]
          rw [hstep, joinSlash_splitSlash,
              dictInsert_of_fresh resAcc k _ (hr k hkmem)] at hloop
          have hm2 : ∀ k2 ∈ rest.map Prod.fst, ∀ p ∈ metaAcc, p.1 ≠ k2 := by
            intro k2 hk2 p hp
            exact hm k2 (by simp [hk2]) p hp
          have hr2 : ∀ k2 ∈ rest.map Prod.fst, ∀ p ∈ resAcc ++ [(k, RRes.rep rg)], p.1 ≠ k2 := by
            intro k2 hk2 p hp
            rcases List.mem_append.mp hp with hpl | hpr
            · exact hr k2 (by simp [hk2]) p hpl
            · rcases List.mem_singleton.mp hpr with rfl
              exact fun hc => hknotrest k2 hk2 hc.symm
          obtain ⟨h1, h2⟩ := ih _ _ _ _ hm2 hr2 hndrest hloop
          constructor
          · rw [h1, List.filter_cons, if_neg (by simpa using hmk)]
          · rw [h2, List.filter_cons, if_pos (by simp [hmk]), List.map_append,
                List.append_assoc]
            rfl
      | str s =>
        cases hsl : splitLast (splitSlash k) with
        | none =>
          have := splitLast_isSome_of_ne_nil (splitSlash k) (splitSlash_ne_nil k)
          rw [hsl] at this
          exact absurd this (by simp)
        | some pr =>
          rcases pr with ⟨gcs, qc⟩
          cases hlq : labelQuestion gcs qc s questions cl unpack with
          | error e =>
            have hbad : labelResultLoop cl questions unpack ((k, .str s) :: rest) metaAcc resAcc
                = .error e := by
              simp [labelResultLoop, hmk, hsl, hlq]
            rw [hbad] at hloop
            exact Except.noConfusion hloop
          | ok rq =>
            have hstep : labelResultLoop cl questions unpack ((k, .str s) :: rest) metaAcc resAcc
                = labelResultLoop cl questions unpack rest metaAcc
                    (dictInsert resAcc k (.qn rq)) := by
              simp [labelResultLoop, hmk, hsl, hlq]
            rw [hstep, dictInsert_of_fresh resAcc k _ (hr k hkmem)] at hloop
            have hm2 : ∀ k2 ∈ rest.map Prod.fst, ∀ p ∈ metaAcc, p.1 ≠ k2 := by
              intro k2 hk2 p hp
              exact hm k2 (by simp [hk2]) p hp
            have hr2 : ∀ k2 ∈ rest.map Prod.fst, ∀ p ∈ resAcc ++ [(k, RRes.qn rq)], p.1 ≠ k2 := by
              intro k2 hk2 p hp
              rcases List.mem_append.mp hp with hpl | hpr
              · exact hr k2 (by simp [hk2]) p hpl
              · rcases List.mem_singleton.mp hpr with rfl
                exact fun hc => hknotrest k2 hk2 hc.symm
            obtain ⟨h1, h2⟩ := ih _ _ _ _ hm2 hr2 hndrest hloop
            constructor
            · rw [h1, List.filter_cons, if_neg (by simpa using hmk)]
            · rw [h2, List.filter_cons, if_pos (by simp [hmk]), List.map_append,
                  List.append_assoc]
              rfl

/-- C6: when `label_result` succeeds on a response with distinct keys
(dict keys are distinct by construction), the input key set is
partitioned exactly: `meta` is, verbatim and in order, the sublist of
entries whose key matches the metadata prefix tuple (`startswith`, line
594), `results` carries every other key with its original key string
preserved (in order), the two are disjoint, and their union is the
input's key set. -/
theorem C6_label_result_partition (input : List (String × RVal)) (cl : ChoiceIndex)
    (questions : Group) (unpack : Bool) (meta : List (String × RVal))
    (results : List (String × RRes))
    (hnd : (input.map Prod.fst).Nodup)
    (h : label_result input cl questions unpack = .ok (meta, results)) :
    meta = input.filter (fun p => isMetaKey p.1) ∧
    results.map Prod.fst = (input.filter (fun p => !isMetaKey p.1)).map Prod.fst ∧
    (∀ k, ¬ (k ∈ meta.map Prod.fst ∧ k ∈ results.map Prod.fst)) ∧
    (∀ k, k ∈ input.map Prod.fst ↔ k ∈ meta.map Prod.fst ∨ k ∈ results.map Prod.fst) := by
  obtain ⟨h1, h2⟩ := labelResultLoop_partition cl questions unpack input [] [] meta results
    (by intro k _ p hp; exact absurd hp (List.not_mem_nil p))
    (by intro k _ p hp; exact absurd hp (List.not_mem_nil p))
    hnd h
  simp only [List.nil_append, List.map_nil] at h1 h2
  have hmetaKey : ∀ k, k ∈ meta.map Prod.fst ↔ k ∈ input.map Prod.fst ∧ isMetaKey k := by
    intro k
    rw [h1]
    constructor
    · intro hk
      obtain ⟨q, hq, hqk⟩ := List.mem_map.mp hk
      obtain ⟨hqin, hqmeta⟩ := List.mem_filter.mp hq
      subst hqk
      exact ⟨List.mem_map.mpr ⟨q, hqin, rfl⟩, hqmeta⟩
    · intro ⟨hk, hkm⟩
      obtain ⟨q, hq, hqk⟩ := List.mem_map.mp hk
      subst hqk
      exact List.mem_map.mpr ⟨q, List.mem_filter.mpr ⟨hq, hkm⟩, rfl⟩
  have hresKey : ∀ k, k ∈ results.map Prod.fst ↔ k ∈ input.map Prod.fst ∧ ¬ isMetaKey k := by
    intro k
    rw [h2]
    constructor
    · intro hk
      obtain ⟨q, hq, hqk⟩ := List.mem_map.mp hk
      obtain ⟨hqin, hqmeta⟩ := List.mem_filter.mp hq
      subst hqk
      exact ⟨List.mem_map.mpr ⟨q, hqin, rfl⟩, by simpa using hqmeta⟩
    · intro ⟨hk, hkm⟩
      obtain ⟨q, hq, hqk⟩ := List.mem_map.mp hk
      subst hqk
      exact List.mem_map.mpr ⟨q, List.mem_filter.mpr ⟨hq, by simpa using hkm⟩, rfl⟩
  refine ⟨h1, h2, ?_, ?_⟩
  · intro k ⟨hk1, hk2⟩
    exact ((hresKey k).mp hk2).2 ((hmetaKey k).mp hk1).2
  · intro k
    constructor
    · intro hk
      by_cases hkm : isMetaKey k
      · exact Or.inl ((hmetaKey k).mpr ⟨hk, hkm⟩)
      · exact Or.inr ((hresKey k).mpr ⟨hk, hkm⟩)
    · intro hk
      rcases hk with hk | hk
      · exact ((hmetaKey k).mp hk).1
      · exact ((hresKey k).mp hk).1

/-- Witness for C6: a two-key response, one metadata key and one
groupless question key (labeled via the fallback), partitions exactly. -/
theorem C6_label_result_partition_witness :
    label_result [("_id", RVal.str "7"), ("q", RVal.str "v")] [] emptyGroup false =
      .ok ([("_id", RVal.str "7")], [("q", RRes.qn (unlabeled_question "q" "v"))]) ∧
    ([("_id", RVal.str "7"), ("q", RVal.str "v")].map Prod.fst).Nodup ∧
    ([("_id", RVal.str "7")] : List (String × RVal)) =
      [("_id", RVal.str "7"), ("q", RVal.str "v")].filter (fun p => isMetaKey p.1) ∧
    [("q", RRes.qn (unlabeled_question "q" "v"))].map Prod.fst =
      ([("_id", RVal.str "7"), ("q", RVal.str "v")].filter
        (fun p => !isMetaKey p.1)).map Prod.fst := by
  have hnd : ([("_id", RVal.str "7"), ("q", RVal.str "v")].map Prod.fst).Nodup := by
    simp
  have h : label_result [("_id", RVal.str "7"), ("q", RVal.str "v")] [] emptyGroup false =
      .ok ([("_id", RVal.str "7")], [("q", RRes.qn (unlabeled_question "q" "v"))]) := rfl
  obtain ⟨h1, h2, -, -⟩ := C6_label_result_partition _ [] emptyGroup false _ _ hnd h
  exact ⟨h, hnd, h1, h2⟩

/-! ## C4 -/

/-- The answer label the spec describes for "select many": concatenate
each resolved choice label followed by a semicolon, in the order the
codes appear in the raw value; `none` when any lookup fails (the caller
then falls back to the raw value). -/
def specConcat (bucket : ChoiceList) : List String → Option String
  | [] => some ""
  | c :: rest =>
    match dictGet bucket c with
    | none => none
    | some info =>
      match info.label, specConcat bucket rest with
      | some lbl, some tail => some (lbl ++ ";" ++ tail)
      | _, _ => none

/-- The per-choice map the spec describes for `unpackMultiples`: one
entry per choice of the list, in the ChoiceIndex's insertion order,
carrying the choice's schema sequence (from the question node) and
label, and the binary membership answer. -/
def specUnpacked (bucket : ChoiceList) (qcs : List (String × SubChoice))
    (codes : List String) : List (String × ChoiceOut) :=
  bucket.map (fun p =>
    (p.1, ⟨((dictGet qcs p.1).getD ⟨none, 0⟩).sequence, p.2.label,
           if codes.contains p.1 then 1 else 0,
           if codes.contains p.1 then "Yes" else "No"⟩))

theorem concatGo_spec (bucket : ChoiceList) (codes : List String)
    (hlab : ∀ c ∈ codes, ∀ info, dictGet bucket c = some info → info.label.isSome) :
    ∀ acc, concatGo bucket acc codes =
      .ok (match specConcat bucket codes with
           | some s => some (acc ++ s)
           | none => none) := by
  induction codes with
  | nil =>
    intro acc
    simp [concatGo, specConcat]
  | cons c rest ih =>
    intro acc
    cases hc : dictGet bucket c with
    | none => simp [concatGo, specConcat, hc]
    | some info =>
      have hsome : info.label.isSome := hlab c (List.mem_cons_self _ _) info hc
      obtain ⟨lbl, hlbl⟩ := Option.isSome_iff_exists.mp hsome
      have ih2 := ih (fun c2 hc2 info2 h2 => hlab c2 (List.mem_cons_of_mem _ hc2) info2 h2)
      simp only [concatGo, specConcat, hc, hlbl]
      rw [ih2 (acc ++ lbl ++ ";")]
      cases hspec : specConcat bucket rest with
      | none => rfl
      | some tail =>
        simp only []
        rw [String.append_assoc, String.append_assoc, String.append_assoc]

theorem unpackGo_spec (qcs : List (String × SubChoice)) (codes : List String) :
    ∀ (bucket : ChoiceList) (acc : List (String × ChoiceOut)),
      (∀ c ∈ bucket.map Prod.fst, (dictGet qcs c).isSome) →
      (bucket.map Prod.fst).Nodup →
      (∀ p ∈ acc, ∀ c ∈ bucket.map Prod.fst, p.1 ≠ c) →
      unpackGo (some qcs) codes bucket acc =
        .ok (acc ++ specUnpacked bucket qcs codes) := by
  intro bucket
  induction bucket with
  | nil =>
    intro acc _ _ _
    simp [unpackGo, specUnpacked]
  | cons p rest ih =>
    rcases p with ⟨ccode, cinfo⟩
    intro acc hcov hnd hfresh
    obtain ⟨sub, hsub⟩ := Option.isSome_iff_exists.mp
      (hcov ccode (by simp))
    have hstep : unpackGo (some qcs) codes ((ccode, cinfo) :: rest) acc =
        unpackGo (some qcs) codes rest
          (dictInsert acc ccode
            ⟨sub.sequence, cinfo.label,
             if codes.contains ccode then 1 else 0,
             if codes.contains ccode then "Yes" else "No"⟩) := by
      simp [unpackGo, hsub]
    rw [hstep, dictInsert_of_fresh acc ccode _
         (fun p hp => hfresh p hp ccode (by simp))]
    have hndrest : (rest.map Prod.fst).Nodup := (List.nodup_cons.mp (by simpa using hnd)).2
    have hccode_notin : ccode ∉ rest.map Prod.fst :=
      (List.nodup_cons.mp (by simpa using hnd)).1
    rw [ih _ (fun c hc => hcov c (by simp [hc])) hndrest
          (by
            intro p hp c hc
            rcases List.mem_append.mp hp with hpl | hpr
            · exact hfresh p hpl c (by simp [hc])
            · rcases List.mem_singleton.mp hpr with rfl
              exact fun hcc => hccode_notin (by
                have hce : ccode = c := hcc
                rw [hce]
                exact hc))]
    rw [List.append_assoc]
    have hseq : specUnpacked ((ccode, cinfo) :: rest) qcs codes =
        (ccode, ⟨sub.sequence, cinfo.label,
                 if codes.contains ccode then 1 else 0,
                 if codes.contains ccode then "Yes" else "No"⟩) ::
          specUnpacked rest qcs codes := by
      simp [specUnpacked, hsub]
    rw [hseq]
    rfl

/-- C4: for a resolvable, labeled `select_multiple` question whose
found choices all carry labels and whose node covers the choice list
(the `unpack_multiples=True` build), labeling with
`unpack_multiples=True` yields: `answer_label` = the semicolon-
terminated concatenation of the choice labels in raw-value order, or
the raw value itself when some code is missing from the list; and
`choices` = one entry per choice of the list in ChoiceIndex insertion
order with the choice's schema sequence and label, `answer_code`
1/0 and `answer_label` "Yes"/"No" by membership in the space-split
raw value. -/
theorem C4_select_multiple_labeling
    (gcs : List String) (qc value : String) (questions : Group)
    (cl : ChoiceIndex) (g : Group) (qs : List (String × Question))
    (q : Question) (lbl ln : String) (bucket : ChoiceList)
    (qcs : List (String × SubChoice))
    (hdesc : descend questions gcs = .ok (some g))
    (hqs : g.questions = some qs)
    (hq : dictGet qs qc = some q)
    (hlbl : q.label = some lbl)
    (hty : q.type_ = "select_multiple")
    (hln : q.list_name = some ln)
    (hbucket : dictGet cl ln = some bucket)
    (hqcs : q.choices = some qcs)
    (hlab : (pySplit value).all
      (fun c => match dictGet bucket c with
                | none => true
                | some info => info.label.isSome) = true)
    (hcov : (bucket.map Prod.fst).all (fun c => (dictGet qcs c).isSome) = true)
    (hndb : (bucket.map Prod.fst).Nodup) :
    labelQuestion gcs qc value questions cl true =
      .ok ⟨some q.sequence, lbl, value,
           some ((specConcat bucket (pySplit value)).getD value),
           some (specUnpacked bucket qcs (pySplit value))⟩ := by
  have hlab2 : ∀ c ∈ pySplit value, ∀ info, dictGet bucket c = some info →
      info.label.isSome := by
    intro c hc info hinfo
    have := List.all_eq_true.mp hlab c hc
    rw [hinfo] at this
    exact this
  have hcov2 : ∀ c ∈ bucket.map Prod.fst, (dictGet qcs c).isSome := by
    intro c hc
    exact List.all_eq_true.mp hcov c hc
  have hconcat : concatLabels (some bucket) (pySplit value) =
      .ok (match specConcat bucket (pySplit value) with
           | some s => some s
           | none => none) := by
    cases hcodes : pySplit value with
    | nil => simp [concatLabels, specConcat]
    | cons c0 crest =>
      show concatGo bucket "" (c0 :: crest) = _
      rw [concatGo_spec bucket (c0 :: crest) (hcodes ▸ hlab2) ""]
      cases hspec : specConcat bucket (c0 :: crest) with
      | none => rfl
      | some s =>
        simp only []
        rw [show ("" : String) ++ s = s from rfl]
  have hunpack := unpackGo_spec qcs (pySplit value) bucket [] hcov2 hndb
    (by intro p hp; exact absurd hp (List.not_mem_nil p))
  unfold labelQuestion
  simp only [hdesc, hqs, hq, hlbl, hty, hln, hbucket, hconcat, hqcs]
  rw [show (("select_multiple" : String) == "select_one") = false from rfl]
  rw [show (("select_multiple" : String) == "select_multiple") = true from rfl]
  simp only [Bool.false_eq_true, if_false, if_true]
  rw [hunpack]
  simp only [List.nil_append]
  cases hspec : specConcat bucket (pySplit value) with
  | none => rfl
  | some s => rfl

/-- Witness for C4 at the spec's example: raw value `"a c"` over the
choice list `{a, b, c}` with labels `LabelA/LabelB/LabelC`. -/
theorem C4_select_multiple_labeling_witness :
    labelQuestion [] "q" "a c"
      (.mk none none none
        (some [("q", ⟨"select_multiple", 1, some "Q", some "L",
                      some [("a", ⟨some "LabelA", 2⟩), ("b", ⟨some "LabelB", 3⟩),
                            ("c", ⟨some "LabelC", 4⟩)], none⟩)]) none)
      [("L", [("a", ⟨some "LabelA", 0⟩), ("b", ⟨some "LabelB", 1⟩),
              ("c", ⟨some "LabelC", 2⟩)])] true =
      .ok ⟨some 1, "Q", "a c", some "LabelA;LabelC;",
           some [("a", ⟨2, some "LabelA", 1, "Yes"⟩),
                 ("b", ⟨3, some "LabelB", 0, "No"⟩),
                 ("c", ⟨4, some "LabelC", 1, "Yes"⟩)]⟩ := by
  have h := C4_select_multiple_labeling [] "q" "a c"
    (.mk none none none
      (some [("q", ⟨"select_multiple", 1, some "Q", some "L",
                    some [("a", ⟨some "LabelA", 2⟩), ("b", ⟨some "LabelB", 3⟩),
                          ("c", ⟨some "LabelC", 4⟩)], none⟩)]) none)
    [("L", [("a", ⟨some "LabelA", 0⟩), ("b", ⟨some "LabelB", 1⟩),
            ("c", ⟨some "LabelC", 2⟩)])]
    _ _ ⟨"select_multiple", 1, some "Q", some "L",
         some [("a", ⟨some "LabelA", 2⟩), ("b", ⟨some "LabelB", 3⟩),
               ("c", ⟨some "LabelC", 4⟩)], none⟩ "Q" "L"
    [("a", ⟨some "LabelA", 0⟩), ("b", ⟨some "LabelB", 1⟩), ("c", ⟨some "LabelC", 2⟩)]
    [("a", ⟨some "LabelA", 2⟩), ("b", ⟨some "LabelB", 3⟩), ("c", ⟨some "LabelC", 4⟩)]
    rfl rfl rfl rfl rfl rfl rfl rfl (by decide) (by decide) (by decide)
  rw [h]
  rfl

/-! ## C3 -/

/-- Stripping a leading run of segments: `some rest` when `outer` is a
leading segment-wise run of `inner`, `none` otherwise.  This is the
"strip the outer group-code prefix components" operation the spec
describes. -/
def dropLead : List String → List String → Option (List String)
  | [], inner => some inner
  | _ :: _, [] => none
  | o :: os, x :: xs => if x = o then dropLead os xs else none

/-- For a key whose path begins with the outer group codes, removing
each outer code's first occurrence in turn (what the source's
`list.remove` loop does, lines 557-558) is exactly stripping that
leading run. -/
theorem removeOuter_of_dropLead :
    ∀ (outer path rest : List String), dropLead outer path = some rest →
      removeOuter path outer = some rest := by
  intro outer
  induction outer with
  | nil =>
    intro path rest h
    have : path = rest := Option.some.inj h
    rw [this]
    rfl
  | cons o os ih =>
    intro path rest h
    cases path with
    | nil => simp [dropLead] at h
    | cons x xs =>
      by_cases hx : x = o
      · rw [show dropLead (o :: os) (x :: xs) = dropLead os xs from by
            simp [dropLead, hx]] at h
        have hpr : pyRemove (x :: xs) o = some xs := by
          simp [pyRemove, hx]
        show (match pyRemove (x :: xs) o with
              | none => none
              | some inner2 => removeOuter inner2 os) = some rest
        rw [hpr]
        exact ih xs rest h
      · simp [dropLead, hx] at h

mutual

/-- The repeat-group labeling as the spec words it: same structure as
`labelRepeatGroup`, but the path relative to the repeat group is
obtained by stripping the outer group-code prefix components. -/
def labelRepeatGroupSpec (outer : List String) (l : List (List (String × RVal)))
    (questions : Group) (choice_lists : ChoiceIndex) (unpack : Bool) (i : Nat) :
    Except Unit (List (Nat × List (String × RRes))) :=
  match l with
  | [] => .ok []
  | inst :: rest =>
    match labelInstanceSpec outer inst questions choice_lists unpack with
    | .error e => .error e
    | .ok entry =>
      match labelRepeatGroupSpec outer rest questions choice_lists unpack (i + 1) with
      | .error e => .error e
      | .ok tail => .ok ((i, entry) :: tail)
termination_by sizeOf l

def labelInstanceSpec (outer : List String) (inst : List (String × RVal))
    (questions : Group) (choice_lists : ChoiceIndex) (unpack : Bool) :
    Except Unit (List (String × RRes)) :=
  match inst with
  | [] => .ok []
  | (k, v) :: rest =>
    match dropLead outer (splitSlash k) with
    | none => .error ()
    | some inner =>
      match v with
      | .list sub =>
        match labelRepeatGroupSpec (outer ++ inner) sub questions choice_lists unpack 0 with
        | .error e => .error e
        | .ok rg =>
          match labelInstanceSpec outer rest questions choice_lists unpack with
          | .error e => .error e
          | .ok tail => .ok ((joinSlash inner, .rep rg) :: tail)
      | .str s =>
        match splitLast inner with
        | none => .error ()
        | some (gcs, qc) =>
          match labelQuestion (outer ++ gcs) qc s questions choice_lists unpack with
          | .error e => .error e
          | .ok rq =>
            match labelInstanceSpec outer rest questions choice_lists unpack with
            | .error e => .error e
            | .ok tail => .ok ((joinSlash (gcs ++ [qc]), .qn rq) :: tail)
termination_by sizeOf inst

end

mutual

/-- Well-formed repeat payload: every key at every nesting level has
the accumulated outer group codes as a leading segment run. -/
def wfRepeat (outer : List String) (l : List (List (String × RVal))) : Bool :=
  match l with
  | [] => true
  | inst :: rest => wfInstance outer inst && wfRepeat outer rest
termination_by sizeOf l

def wfInstance (outer : List String) (inst : List (String × RVal)) : Bool :=
  match inst with
  | [] => true
  | (k, v) :: rest =>
    (match dropLead outer (splitSlash k) with
     | none => false
     | some inner =>
       match v with
       | .list sub => wfRepeat (outer ++ inner) sub
       | .str _ => true) && wfInstance outer rest
termination_by sizeOf inst

end

mutual

theorem labelRepeatGroup_eq_spec (outer : List String)
    (l : List (List (String × RVal))) (questions : Group)
    (choice_lists : ChoiceIndex) (unpack : Bool) (i : Nat)
    (hwf : wfRepeat outer l = true) :
    labelRepeatGroup outer l questions choice_lists unpack i =
      labelRepeatGroupSpec outer l questions choice_lists unpack i := by
  match l with
  | [] =>
    simp [labelRepeatGroup, labelRepeatGroupSpec]
  | inst :: rest =>
    rw [wfRepeat, Bool.and_eq_true] at hwf
    obtain ⟨h1, h2⟩ := hwf
    have hinst := labelInstance_eq_spec outer inst questions choice_lists unpack h1
    have hrest := labelRepeatGroup_eq_spec outer rest questions choice_lists unpack (i + 1) h2
    rw [labelRepeatGroup, labelRepeatGroupSpec, hinst, hrest]
termination_by sizeOf l

theorem labelInstance_eq_spec (outer : List String) (inst : List (String × RVal))
    (questions : Group) (choice_lists : ChoiceIndex) (unpack : Bool)
    (hwf : wfInstance outer inst = true) :
    labelInstance outer inst questions choice_lists unpack =
      labelInstanceSpec outer inst questions choice_lists unpack := by
  match inst with
  | [] =>
    simp [labelInstance, labelInstanceSpec]
  | (k, v) :: rest =>
    rw [wfInstance, Bool.and_eq_true] at hwf
    obtain ⟨h1, h2⟩ := hwf
    have htail := labelInstance_eq_spec outer rest questions choice_lists unpack h2
    cases hdl : dropLead outer (splitSlash k) with
    | none => rw [hdl] at h1; exact absurd h1 (by simp)
    | some inner =>
      have hro := removeOuter_of_dropLead outer (splitSlash k) inner hdl
      rw [hdl] at h1
      simp only [] at h1
      cases v with
      | str s =>
        simp only [labelInstance, labelInstanceSpec, hro, hdl, htail]
      | list sub =>
        have hsub := labelRepeatGroup_eq_spec (outer ++ inner) sub questions
          choice_lists unpack 0 h1
        simp only [labelInstance, labelInstanceSpec, hro, hdl, hsub, htail]
termination_by sizeOf inst

end

theorem labelRepeatGroup_indices (outer : List String) (questions : Group)
    (choice_lists : ChoiceIndex) (unpack : Bool) :
    ∀ (l : List (List (String × RVal))) (i : Nat)
      (out : List (Nat × List (String × RRes))),
      labelRepeatGroup outer l questions choice_lists unpack i = .ok out →
      out.map Prod.fst = List.range' i l.length := by
  intro l
  induction l with
  | nil =>
    intro i out h
    rw [labelRepeatGroup] at h
    have : ([] : List (Nat × List (String × RRes))) = out := Except.ok.inj h
    rw [← this]
    rfl
  | cons inst rest ih =>
    intro i out h
    rw [labelRepeatGroup] at h
    cases hinst : labelInstance outer inst questions choice_lists unpack with
    | error e => rw [hinst] at h; exact Except.noConfusion h
    | ok entry =>
      rw [hinst] at h
      cases hrest : labelRepeatGroup outer rest questions choice_lists unpack (i + 1) with
      | error e => rw [hrest] at h; exact Except.noConfusion h
      | ok tail =>
        rw [hrest] at h
        have : ((i, entry) :: tail) = out := Except.ok.inj h
        rw [← this]
        have htail := ih (i + 1) tail hrest
        simp [List.range', htail]

/-- C3: on a repeat-group payload whose keys carry the accumulated
outer group codes as leading segments (the shape the upstream API
produces), `label_repeat_group` behaves exactly as the spec describes:
it indexes the instances by consecutive integers 0, 1, 2, … in input
order, strips the outer group-code prefix components from each key,
recurses on list values with the accumulator extended by the newly
discovered intermediate segments, and labels any other value as a
single question using the full accumulated group-code path. -/
theorem C3_label_repeat_group (outer : List String)
    (l : List (List (String × RVal))) (questions : Group)
    (choice_lists : ChoiceIndex) (unpack : Bool)
    (hwf : wfRepeat outer l = true) :
    labelRepeatGroup outer l questions choice_lists unpack 0 =
      labelRepeatGroupSpec outer l questions choice_lists unpack 0 ∧
    ∀ out, labelRepeatGroup outer l questions choice_lists unpack 0 = .ok out →
      out.map Prod.fst = List.range l.length := by
  refine ⟨labelRepeatGroup_eq_spec outer l questions choice_lists unpack 0 hwf, ?_⟩
  intro out h
  rw [List.range_eq_range']
  exact labelRepeatGroup_indices outer questions choice_lists unpack l 0 out h

/-- Witness for C3: a repeat group nested inside a repeat group (two
levels); the result is an integer-indexed map of integer-indexed maps
with both outer prefixes stripped at each level. -/
theorem C3_label_repeat_group_witness :
    wfRepeat ["r"] [[("r/r2", RVal.list [[("r/r2/q", RVal.str "v")]])]] = true ∧
    (labelRepeatGroup ["r"] [[("r/r2", RVal.list [[("r/r2/q", RVal.str "v")]])]]
        (.mk none none none none (some [])) [] false 0 =
      labelRepeatGroupSpec ["r"] [[("r/r2", RVal.list [[("r/r2/q", RVal.str "v")]])]]
        (.mk none none none none (some [])) [] false 0 ∧
     ∀ out, labelRepeatGroup ["r"] [[("r/r2", RVal.list [[("r/r2/q", RVal.str "v")]])]]
        (.mk none none none none (some [])) [] false 0 = .ok out →
       out.map Prod.fst = List.range 1) ∧
    labelRepeatGroup ["r"] [[("r/r2", RVal.list [[("r/r2/q", RVal.str "v")]])]]
        (.mk none none none none (some [])) [] false 0 =
      .ok [(0, [("r2", RRes.rep [(0, [("q", RRes.qn (unlabeled_question "q" "v"))])])])] := by
  have hs1 : splitSlash "r/r2" = ["r", "r2"] := rfl
  have hs2 : splitSlash "r/r2/q" = ["r", "r2", "q"] := rfl
  have hwf : wfRepeat ["r"] [[("r/r2", RVal.list [[("r/r2/q", RVal.str "v")]])]] = true := by
    simp only [wfRepeat, wfInstance, hs1, hs2]
    rfl
  refine ⟨hwf, C3_label_repeat_group _ _ _ _ _ hwf, ?_⟩
  simp only [labelRepeatGroup, labelInstance, hs1, hs2]
  rfl

/-! ## C2

To state "sorting everything by sequence reconstructs the original
definition order", each sequence-carrying thing `get_questions` creates
is described by an `Item`, the input's depth-first event list is
computed by `inputEvents`, and the built tree's items are gathered by
`collectGroup`. -/

/-- One sequence-numbered thing created by `get_questions`: a group
open, a question, an unpacked choice sub-entry, or an `'other'`
sub-entry. -/
inductive Item where
  | group (name : Option String)
  | question (name : String) (ty : String)
  | choiceOpt (qname : String) (ccode : String)
  | other (qname : String)
deriving DecidableEq, Repr

/-- The sequence-numbered items inside one built question node, in
counter order: the question itself, its unpacked choice sub-entries,
its `'other'` sub-entry. -/
def questionItems (nm : String) (q : Question) : List (Nat × Item) :=
  (q.sequence, Item.question nm q.type_) ::
    ((q.choices.getD []).map (fun p => (p.2.sequence, Item.choiceOpt nm p.1)) ++
     (match q.other with
      | some s => [(s, Item.other nm)]
      | none => []))

/-- The sequence entry a named child group contributes. -/
def seqGroupEntry (n : Option String) (g : Group) : List (Nat × Item) :=
  match g.sequence with
  | some s => [(s, Item.group n)]
  | none => []

mutual

/-- All sequence-numbered items of a (sub)tree. -/
def collectGroup : Group → List (Nat × Item)
  | .mk _ _ _ qs gs =>
    (match qs with
     | none => []
     | some ql => collectQList ql) ++
    (match gs with
     | none => []
     | some gl => collectGList gl)
termination_by g => sizeOf g

def collectQList : List (String × Question) → List (Nat × Item)
  | [] => []
  | (n, q) :: rest => questionItems n q ++ collectQList rest
termination_by l => sizeOf l

def collectGList : List (Option String × Group) → List (Nat × Item)
  | [] => []
  | (n, g) :: rest => seqGroupEntry n g ++ collectGroup g ++ collectGList rest
termination_by l => sizeOf l

end

/-- The depth-first event list of the raw survey, with the sequence
number each event receives: one event per group open, one per question,
one per unpacked choice sub-entry, one per `'other'` sub-entry, in
input order (group closes receive none).  Branches on which the builder
raises produce an irrelevant `[]` (the claims condition on a successful
build). -/
def inputEvents (chs : ChoiceIndex) (unpack : Bool) :
    List SurveyElem → Nat → List (Nat × Item)
  | [], _ => []
  | e :: rest, seq =>
    if e.type_ == "begin_group" || e.type_ == "begin_repeat" then
      (seq, Item.group (pyName e)) :: inputEvents chs unpack rest (seq + 1)
    else if e.type_ == "end_group" || e.type_ == "end_repeat" then
      inputEvents chs unpack rest seq
    else
      match pyName e with
      | none => []
      | some nm =>
        match buildQuestion chs unpack e seq with
        | .error _ => []
        | .ok (q, seq2) => questionItems nm q ++ inputEvents chs unpack rest seq2

/-- The freshness checker: it replays the `get_questions` loop on the
same state and additionally demands that every group is attached under
a name not already among the current node's child groups and every
question under a code not already among the current node's questions
(so no dict assignment in the builder overwrites an existing entry). -/
def distinctOKLoop (chs : ChoiceIndex) (unpack : Bool) :
    List SurveyElem → Nat → Group → List (Group × Option String) → Bool
  | [], _, _, _ => true
  | e :: rest, seq, cur, stack =>
    if e.type_ == "begin_group" || e.type_ == "begin_repeat" then
      (dictGet (cur.groups.getD []) (pyName e)).isNone &&
      distinctOKLoop chs unpack rest (seq + 1)
        (.mk (some (e.type_ == "begin_repeat")) e.label (some seq) none none)
        ((setGroupChild cur (pyName e) emptyGroup, pyName e) :: stack)
    else if e.type_ == "end_group" || e.type_ == "end_repeat" then
      match stack with
      | [] => false
      | (p, n) :: rest' =>
        distinctOKLoop chs unpack rest seq (setGroupChild p n cur) rest'
    else
      match pyName e with
      | none => false
      | some nm =>
        (dictGet (cur.questions.getD []) nm).isNone &&
        match buildQuestion chs unpack e seq with
        | .error _ => false
        | .ok (q, seq2) =>
          distinctOKLoop chs unpack rest seq2 (attachQuestion cur nm q) stack

/-- Balanced begin/end pairs (running open-group depth, ending at 0). -/
def balancedSurvey : List SurveyElem → Nat → Bool
  | [], d => d == 0
  | e :: rest, d =>
    if e.type_ == "begin_group" || e.type_ == "begin_repeat" then
      balancedSurvey rest (d + 1)
    else if e.type_ == "end_group" || e.type_ == "end_repeat" then
      match d with
      | 0 => false
      | d' + 1 => balancedSurvey rest d'
    else balancedSurvey rest d

/-- What `mkChoices` appends: one sub-entry per (sorted) choice with
consecutive sequence numbers from `s`. -/
def mkChoicesSpec : List (String × ChoiceInfo) → Nat → List (String × SubChoice)
  | [], _ => []
  | (c, info) :: rest, s => (c, ⟨info.label, s⟩) :: mkChoicesSpec rest (s + 1)

attribute [simp] Group.repeat_ Group.label Group.sequence Group.questions Group.groups

theorem collectGroup_eq (g : Group) :
    collectGroup g =
      collectQList (g.questions.getD []) ++ collectGList (g.groups.getD []) := by
  cases g with
  | mk r l s qs gs =>
    cases qs <;> cases gs <;> simp [collectGroup, collectQList, collectGList]

theorem collectGroup_emptyGroup : collectGroup emptyGroup = [] := by
  simp [emptyGroup, collectGroup]

theorem collectQList_append (a b : List (String × Question)) :
    collectQList (a ++ b) = collectQList a ++ collectQList b := by
  induction a with
  | nil => simp [collectQList]
  | cons p rest ih =>
    rcases p with ⟨n, q⟩
    simp [collectQList, ih]

theorem collectGList_append (a b : List (Option String × Group)) :
    collectGList (a ++ b) = collectGList a ++ collectGList b := by
  induction a with
  | nil => simp [collectGList]
  | cons p rest ih =>
    rcases p with ⟨n, g⟩
    simp [collectGList, ih]

theorem forall_ne_of_dictGet_none [BEq α] [LawfulBEq α] (d : List (α × β)) (k : α)
    (h : dictGet d k = none) : ∀ p ∈ d, p.1 ≠ k := by
  induction d with
  | nil => intro p hp; exact absurd hp (List.not_mem_nil p)
  | cons p0 rest ih =>
    rcases p0 with ⟨k0, v0⟩
    intro p hp
    rcases List.mem_cons.mp hp with rfl | hp2
    · intro hc
      subst hc
      simp [dictGet] at h
    · by_cases h0 : k0 == k
      · simp [dictGet, h0] at h
      · exact ih (by simpa [dictGet, h0] using h) p hp2

theorem seqGroupEntry_congr (n : Option String) (g g' : Group)
    (h : g'.sequence = g.sequence) : seqGroupEntry n g' = seqGroupEntry n g := by
  unfold seqGroupEntry
  rw [h]

theorem collectGList_dictInsert (n : Option String) (child : Group) :
    ∀ gl : List (Option String × Group),
      (dictGet gl n = none ∨ dictGet gl n = some emptyGroup) →
      (collectGList (dictInsert gl n child)).Perm
        (collectGList gl ++ seqGroupEntry n child ++ collectGroup child) := by
  intro gl
  induction gl with
  | nil =>
    intro _
    simp [dictInsert, collectGList]
  | cons p rest ih =>
    rcases p with ⟨n0, g0⟩
    intro h
    by_cases h0 : n0 == n
    · have hg0 : g0 = emptyGroup := by
        have hget : dictGet ((n0, g0) :: rest) n = some g0 := by simp [dictGet, h0]
        rcases h with h | h
        · rw [hget] at h
          exact Option.noConfusion h
        · rw [hget] at h
          exact Option.some.inj h
      subst hg0
      rw [show dictInsert ((n0, emptyGroup) :: rest) n child = (n, child) :: rest from by
        simp [dictInsert, h0]]
      rw [show collectGList ((n, child) :: rest)
            = seqGroupEntry n child ++ collectGroup child ++ collectGList rest from by
        simp [collectGList]]
      rw [show collectGList ((n0, emptyGroup) :: rest) = collectGList rest from by
        simp [collectGList, seqGroupEntry, emptyGroup, collectGroup]]
      have hcomm := @List.perm_append_comm _
        (seqGroupEntry n child ++ collectGroup child) (collectGList rest)
      simpa [List.append_assoc] using hcomm
    · have h' : dictGet rest n = none ∨ dictGet rest n = some emptyGroup := by
        rcases h with h | h
        · exact Or.inl (by simpa [dictGet, h0] using h)
        · exact Or.inr (by simpa [dictGet, h0] using h)
      rw [show dictInsert ((n0, g0) :: rest) n child
            = (n0, g0) :: dictInsert rest n child from by
        simp [dictInsert, h0]]
      rw [show collectGList ((n0, g0) :: dictInsert rest n child)
            = (seqGroupEntry n0 g0 ++ collectGroup g0) ++ collectGList (dictInsert rest n child)
          from by simp [collectGList]]
      rw [show collectGList ((n0, g0) :: rest)
            = (seqGroupEntry n0 g0 ++ collectGroup g0) ++ collectGList rest from by
        simp [collectGList]]
      calc ((seqGroupEntry n0 g0 ++ collectGroup g0) ++ collectGList (dictInsert rest n child)).Perm
            ((seqGroupEntry n0 g0 ++ collectGroup g0) ++
              (collectGList rest ++ seqGroupEntry n child ++ collectGroup child)) :=
              List.Perm.append_left _ (ih h')
        _ = ((seqGroupEntry n0 g0 ++ collectGroup g0) ++ collectGList rest) ++
              seqGroupEntry n child ++ collectGroup child := by
              simp [List.append_assoc]

theorem collectGroup_setGroupChild (p : Group) (n : Option String) (child : Group)
    (h : dictGet (p.groups.getD []) n = none ∨
         dictGet (p.groups.getD []) n = some emptyGroup) :
    (collectGroup (setGroupChild p n child)).Perm
      (collectGroup p ++ seqGroupEntry n child ++ collectGroup child) := by
  have h1 : collectGroup (setGroupChild p n child) =
      collectQList (p.questions.getD []) ++
        collectGList (dictInsert (p.groups.getD []) n child) := by
    rw [collectGroup_eq]
    rfl
  rw [h1, collectGroup_eq]
  calc (collectQList (p.questions.getD []) ++
          collectGList (dictInsert (p.groups.getD []) n child)).Perm
        (collectQList (p.questions.getD []) ++
          (collectGList (p.groups.getD []) ++ seqGroupEntry n child ++ collectGroup child)) :=
        List.Perm.append_left _ (collectGList_dictInsert n child _ h)
    _ = (collectQList (p.questions.getD []) ++ collectGList (p.groups.getD [])) ++
          seqGroupEntry n child ++ collectGroup child := by
        simp [List.append_assoc]

theorem collectGroup_attachQuestion (g : Group) (n : String) (q : Question)
    (h : dictGet (g.questions.getD []) n = none) :
    (collectGroup (attachQuestion g n q)).Perm (collectGroup g ++ questionItems n q) := by
  have h1 : collectGroup (attachQuestion g n q) =
      collectQList (dictInsert (g.questions.getD []) n q) ++
        collectGList (g.groups.getD []) := by
    rw [collectGroup_eq]
    rfl
  rw [h1, collectGroup_eq,
      dictInsert_of_fresh _ _ _ (forall_ne_of_dictGet_none _ _ h),
      collectQList_append]
  rw [show collectQList [(n, q)] = questionItems n q ++ [] from by simp [collectQList]]
  have step1 : (collectQList (g.questions.getD []) ++ (questionItems n q ++ [])) ++
      collectGList (g.groups.getD []) =
      collectQList (g.questions.getD []) ++
        (questionItems n q ++ collectGList (g.groups.getD [])) := by
    simp [List.append_assoc]
  rw [step1]
  have step2 := List.Perm.append_left (collectQList (g.questions.getD []))
    (@List.perm_append_comm _ (questionItems n q) (collectGList (g.groups.getD [])))
  have step3 : collectQList (g.questions.getD []) ++
      (collectGList (g.groups.getD []) ++ questionItems n q) =
      (collectQList (g.questions.getD []) ++ collectGList (g.groups.getD [])) ++
        questionItems n q := by
    simp [List.append_assoc]
  rw [← step3]
  exact step2

/-- Invariant of the builder's stack: every frame holds the parent as
it was when the child was opened, with the `{}` placeholder already
inserted under the child's name (line 284). -/
def StackOK (stack : List (Group × Option String)) : Prop :=
  ∀ pn ∈ stack, dictGet (pn.1.groups.getD []) pn.2 = some emptyGroup

theorem collect_flatten_congr :
    ∀ (stack : List (Group × Option String)) (cur cur' : Group)
      (d : List (Nat × Item)),
      StackOK stack →
      cur'.sequence = cur.sequence →
      (collectGroup cur').Perm (collectGroup cur ++ d) →
      (collectGroup (flattenStack cur' stack)).Perm
        (collectGroup (flattenStack cur stack) ++ d) := by
  intro stack
  induction stack with
  | nil =>
    intro cur cur' d _ _ h
    exact h
  | cons pn rest ih =>
    rcases pn with ⟨p, n⟩
    intro cur cur' d hok hseq h
    show (collectGroup (flattenStack (setGroupChild p n cur') rest)).Perm
      (collectGroup (flattenStack (setGroupChild p n cur) rest) ++ d)
    have hp : dictGet (p.groups.getD []) n = some emptyGroup :=
      hok (p, n) (List.mem_cons_self _ _)
    have h1 := collectGroup_setGroupChild p n cur' (Or.inr hp)
    have h2 := collectGroup_setGroupChild p n cur (Or.inr hp)
    have hseq2 : (setGroupChild p n cur').sequence = (setGroupChild p n cur).sequence := rfl
    apply ih (setGroupChild p n cur) (setGroupChild p n cur') d
      (fun pn hpn => hok pn (List.mem_cons_of_mem _ hpn)) hseq2
    have c1 : collectGroup p ++ seqGroupEntry n cur' ++ collectGroup cur' =
        collectGroup p ++ seqGroupEntry n cur ++ collectGroup cur' := by
      rw [seqGroupEntry_congr n cur cur' hseq]
    have c2 : (collectGroup p ++ seqGroupEntry n cur ++ collectGroup cur').Perm
        (collectGroup p ++ seqGroupEntry n cur ++ (collectGroup cur ++ d)) := by
      rw [List.append_assoc, List.append_assoc]
      exact List.Perm.append_left _ (List.Perm.append_left _ h)
    have c3 : collectGroup p ++ seqGroupEntry n cur ++ (collectGroup cur ++ d) =
        (collectGroup p ++ seqGroupEntry n cur ++ collectGroup cur) ++ d := by
      simp [List.append_assoc]
    have c4 : ((collectGroup p ++ seqGroupEntry n cur ++ collectGroup cur) ++ d).Perm
        (collectGroup (setGroupChild p n cur) ++ d) :=
      List.Perm.append_right d h2.symm
    have c5 : (collectGroup (setGroupChild p n cur')).Perm
        (collectGroup p ++ seqGroupEntry n cur ++ (collectGroup cur ++ d)) :=
      (c1 ▸ h1).trans c2
    rw [c3] at c5
    exact c5.trans c4

theorem mem_map_fst_iff_isSome [BEq α] [LawfulBEq α] (d : List (α × β)) (k : α) :
    k ∈ d.map Prod.fst ↔ (dictGet d k).isSome := by
  induction d with
  | nil => simp [dictGet]
  | cons p rest ih =>
    rcases p with ⟨k0, v0⟩
    by_cases h0 : k0 == k
    · simp [dictGet, h0, eq_of_beq h0]
    · have h0' : k0 ≠ k := fun hc => h0 (by simp [hc])
      simp only [List.map_cons, List.mem_cons, dictGet, h0, Bool.false_eq_true,
                 if_false]
      constructor
      · intro hk
        rcases hk with hk | hk
        · exact absurd hk.symm h0'
        · exact ih.mp hk
      · intro hk
        exact Or.inr (ih.mpr hk)

theorem nodup_keys_dictInsert [BEq α] [LawfulBEq α] (d : List (α × β)) (k : α) (v : β)
    (h : (d.map Prod.fst).Nodup) : ((dictInsert d k v).map Prod.fst).Nodup := by
  rw [map_fst_dictInsert]
  by_cases hs : (dictGet d k).isSome
  · rw [if_pos hs]
    exact h
  · rw [if_neg hs]
    rw [List.nodup_append]
    refine ⟨h, List.nodup_singleton k, ?_⟩
    intro a ha hak
    rcases List.mem_singleton.mp hak with rfl
    exact hs ((mem_map_fst_iff_isSome d a).mp ha)

theorem getChoicesLoop_bucket_nodup :
    ∀ (cs : List ChoiceElem) (seq : Nat) (acc : ChoiceIndex),
      (∀ l b, dictGet acc l = some b → (b.map Prod.fst).Nodup) →
      ∀ l b, dictGet (getChoicesLoop cs seq acc) l = some b →
        (b.map Prod.fst).Nodup := by
  intro cs
  induction cs with
  | nil =>
    intro seq acc hacc l b h
    exact hacc l b h
  | cons c rest ih =>
    intro seq acc hacc l b h
    rw [getChoicesLoop_cons] at h
    refine ih (seq + 1) _ ?_ l b h
    intro l2 b2 h2
    by_cases hl : c.list_name = l2
    · subst hl
      rw [dictGet_dictInsert_self] at h2
      have hb2 := Option.some.inj h2
      rw [← hb2]
      apply nodup_keys_dictInsert
      by_cases hs : (dictGet acc c.list_name).isSome
      · obtain ⟨b0, hb0⟩ := Option.isSome_iff_exists.mp hs
        rw [if_pos hs, hb0]
        exact hacc c.list_name b0 hb0
      · rw [if_neg hs, dictGet_dictInsert_self]
        exact List.nodup_nil
    · rw [dictGet_dictInsert_ne _ _ _ _ (fun hc => hl hc.symm)] at h2
      by_cases hs : (dictGet acc c.list_name).isSome
      · rw [if_pos hs] at h2
        exact hacc l2 b2 h2
      · rw [if_neg hs, dictGet_dictInsert_ne _ _ _ _ (fun hc => hl hc.symm)] at h2
        exact hacc l2 b2 h2

/-- Each bucket `get_choices` builds has distinct choice codes (they
are the keys of a Python dict). -/
theorem get_choices_bucket_nodup (cs : List ChoiceElem) :
    ∀ l b, dictGet (get_choices cs) l = some b → (b.map Prod.fst).Nodup :=
  getChoicesLoop_bucket_nodup cs 0 []
    (fun l b h => absurd h (by simp [dictGet]))

theorem mkChoices_eq_spec :
    ∀ (lst : List (String × ChoiceInfo)) (s : Nat) (acc : List (String × SubChoice)),
      (lst.map Prod.fst).Nodup →
      (∀ p ∈ acc, ∀ c ∈ lst.map Prod.fst, p.1 ≠ c) →
      mkChoices lst s acc = (acc ++ mkChoicesSpec lst s, s + lst.length) := by
  intro lst
  induction lst with
  | nil =>
    intro s acc _ _
    simp [mkChoices, mkChoicesSpec]
  | cons p rest ih =>
    rcases p with ⟨c, info⟩
    intro s acc hnd hfresh
    show mkChoices rest (s + 1) (dictInsert acc c ⟨info.label, s⟩) = _
    rw [dictInsert_of_fresh acc c _ (fun p hp => hfresh p hp c (by simp))]
    have hndrest : (rest.map Prod.fst).Nodup :=
      (List.nodup_cons.mp (by simpa using hnd)).2
    have hcnotin : c ∉ rest.map Prod.fst :=
      (List.nodup_cons.mp (by simpa using hnd)).1
    rw [ih (s + 1) _ hndrest (by
      intro p hp c2 hc2
      rcases List.mem_append.mp hp with hpl | hpr
      · exact hfresh p hpl c2 (by simp [hc2])
      · rcases List.mem_singleton.mp hpr with rfl
        exact fun hcc => hcnotin (by
          have hcc2 : c = c2 := hcc
          rw [hcc2]
          exact hc2))]
    have harith : s + 1 + rest.length = s + ((c, info) :: rest).length := by
      simp
      omega
    rw [show acc ++ [(c, (⟨info.label, s⟩ : SubChoice))] ++ mkChoicesSpec rest (s + 1)
          = acc ++ mkChoicesSpec ((c, info) :: rest) s from by
        simp [mkChoicesSpec, List.append_assoc], harith]

theorem mkChoicesSpec_seqs :
    ∀ (lst : List (String × ChoiceInfo)) (s : Nat),
      (mkChoicesSpec lst s).map (fun p => p.2.sequence) =
        List.range' s lst.length := by
  intro lst
  induction lst with
  | nil => intro s; rfl
  | cons p rest ih =>
    rcases p with ⟨c, info⟩
    intro s
    simp only [mkChoicesSpec, List.map_cons, ih, List.length_cons]
    rw [List.range'_succ]

theorem mkChoicesSpec_length (lst : List (String × ChoiceInfo)) (s : Nat) :
    (mkChoicesSpec lst s).length = lst.length := by
  induction lst generalizing s with
  | nil => rfl
  | cons p rest ih =>
    rcases p with ⟨c, info⟩
    simp [mkChoicesSpec, ih]

/-- The counter discipline of one question build: the items of the
built node carry the consecutive sequence numbers `seq, seq+1, …`, and
the returned counter continues right after them. -/
theorem buildQuestion_items (chs : ChoiceIndex) (unpack : Bool) (e : SurveyElem)
    (nm : String) (seq seq2 : Nat) (q : Question)
    (hnodup : ∀ l b, dictGet chs l = some b → (b.map Prod.fst).Nodup)
    (h : buildQuestion chs unpack e seq = .ok (q, seq2)) :
    (questionItems nm q).map Prod.fst =
      List.range' seq ((questionItems nm q).length) ∧
    seq2 = seq + (questionItems nm q).length := by
  have hcomp : ((fun p : Nat × Item => p.1) ∘
      (fun p : String × SubChoice => (p.2.sequence, Item.choiceOpt nm p.1)))
      = (fun p : String × SubChoice => p.2.sequence) := rfl
  unfold buildQuestion at h
  by_cases hu : (unpack && (e.type_ == "select_multiple")) = true
  · rw [if_pos hu] at h
    cases hln : e.select_from_list_name with
    | none =>
      rw [hln] at h
      exact Except.noConfusion h
    | some ln =>
      rw [hln] at h
      simp only [] at h
      cases hbk : dictGet chs ln with
      | none =>
        rw [hbk] at h
        exact Except.noConfusion h
      | some bucket =>
        rw [hbk] at h
        simp only [] at h
        have hnodups : ((List.insertionSort
            (fun a b => a.2.sequence ≤ b.2.sequence) bucket).map Prod.fst).Nodup := by
          have hperm := (List.perm_insertionSort
            (fun a b => a.2.sequence ≤ b.2.sequence) bucket).map Prod.fst
          exact (hperm.symm).nodup (hnodup ln bucket hbk)
        have hmk := mkChoices_eq_spec
          (List.insertionSort (fun a b => a.2.sequence ≤ b.2.sequence) bucket)
          (seq + 1) [] hnodups
          (fun p hp => absurd hp (List.not_mem_nil p))
        rw [hmk] at h
        simp only [List.nil_append] at h
        have hseqs := mkChoicesSpec_seqs
          (List.insertionSort (fun a b => a.2.sequence ≤ b.2.sequence) bucket) (seq + 1)
        have hlen := mkChoicesSpec_length
          (List.insertionSort (fun a b => a.2.sequence ≤ b.2.sequence) bucket) (seq + 1)
        cases ho : e.or_other with
        | false =>
          rw [show addOther e ⟨e.type_, seq, e.label, some ln,
                some (mkChoicesSpec (List.insertionSort
                  (fun a b => a.2.sequence ≤ b.2.sequence) bucket) (seq + 1)), none⟩
                (seq + 1 + (List.insertionSort
                  (fun a b => a.2.sequence ≤ b.2.sequence) bucket).length)
              = (⟨e.type_, seq, e.label, some ln,
                  some (mkChoicesSpec (List.insertionSort
                    (fun a b => a.2.sequence ≤ b.2.sequence) bucket) (seq + 1)), none⟩,
                 seq + 1 + (List.insertionSort
                   (fun a b => a.2.sequence ≤ b.2.sequence) bucket).length)
              from by simp [addOther, ho]] at h
          have hpair := Except.ok.inj h
          have hq := congrArg Prod.fst hpair
          have hs := congrArg Prod.snd hpair
          simp only [] at hq hs
          rw [← hq, ← hs]
          simp only [questionItems, Option.getD_some, List.map_cons, List.map_append,
                     List.map_map, List.map_nil, List.append_nil, List.length_cons,
                     List.length_append, List.length_map, List.length_nil,
                     hcomp, hseqs, hlen, Nat.add_zero]
          constructor
          · rw [List.range'_succ]
          · omega
        | true =>
          rw [show addOther e ⟨e.type_, seq, e.label, some ln,
                some (mkChoicesSpec (List.insertionSort
                  (fun a b => a.2.sequence ≤ b.2.sequence) bucket) (seq + 1)), none⟩
                (seq + 1 + (List.insertionSort
                  (fun a b => a.2.sequence ≤ b.2.sequence) bucket).length)
              = (⟨e.type_, seq, e.label, some ln,
                  some (mkChoicesSpec (List.insertionSort
                    (fun a b => a.2.sequence ≤ b.2.sequence) bucket) (seq + 1)),
                  some (seq + 1 + (List.insertionSort
                    (fun a b => a.2.sequence ≤ b.2.sequence) bucket).length)⟩,
                 seq + 1 + (List.insertionSort
                   (fun a b => a.2.sequence ≤ b.2.sequence) bucket).length + 1)
              from by simp [addOther, ho]] at h
          have hpair := Except.ok.inj h
          have hq := congrArg Prod.fst hpair
          have hs := congrArg Prod.snd hpair
          simp only [] at hq hs
          rw [← hq, ← hs]
          simp only [questionItems, Option.getD_some, List.map_cons, List.map_append,
                     List.map_map, List.map_nil, List.append_nil, List.length_cons,
                     List.length_append, List.length_map, List.length_nil,
                     List.length_singleton, hcomp, hseqs, hlen, Nat.add_zero]
          constructor
          · rw [show seq + 1 + (List.insertionSort
                  (fun a b => a.2.sequence ≤ b.2.sequence) bucket).length
                = (seq + 1) + 1 * (List.insertionSort
                  (fun a b => a.2.sequence ≤ b.2.sequence) bucket).length from by omega]
            rw [← List.range'_concat]
            rw [List.range'_succ, List.range'_succ, List.range'_succ]
          · omega
  · rw [if_neg hu] at h
    cases ho : e.or_other with
    | false =>
      rw [show addOther e ⟨e.type_, seq, e.label, e.select_from_list_name, none, none⟩
            (seq + 1)
          = (⟨e.type_, seq, e.label, e.select_from_list_name, none, none⟩, seq + 1)
          from by simp [addOther, ho]] at h
      have hpair := Except.ok.inj h
      have hq := congrArg Prod.fst hpair
      have hs := congrArg Prod.snd hpair
      simp only [] at hq hs
      rw [← hq, ← hs]
      simp only [questionItems, Option.getD_none, List.map_cons, List.map_append,
                 List.map_nil, List.append_nil, List.length_cons, List.length_append,
                 List.length_nil, Nat.add_zero]
      exact ⟨by rw [List.range'_succ]; rfl, trivial⟩
    | true =>
      rw [show addOther e ⟨e.type_, seq, e.label, e.select_from_list_name, none, none⟩
            (seq + 1)
          = (⟨e.type_, seq, e.label, e.select_from_list_name, none, some (seq + 1)⟩,
             seq + 2) from by simp [addOther, ho]] at h
      have hpair := Except.ok.inj h
      have hq := congrArg Prod.fst hpair
      have hs := congrArg Prod.snd hpair
      simp only [] at hq hs
      rw [← hq, ← hs]
      simp only [questionItems, Option.getD_none, List.map_cons, List.map_append,
                 List.map_nil, List.append_nil, List.length_cons, List.length_append,
                 List.length_nil, List.length_singleton, List.nil_append, Nat.add_zero]
      constructor
      · rw [List.range'_succ, List.range'_succ]
        rfl
      · trivial

/-- On any branch the builder completes, the event list's sequence
numbers are exactly `seq, seq+1, …`: the counter ticks once per event,
in input order. -/
theorem inputEvents_keys (chs : ChoiceIndex) (unpack : Bool)
    (hnodup : ∀ l b, dictGet chs l = some b → (List.map Prod.fst b).Nodup) :
    ∀ (elems : List SurveyElem) (seq : Nat) (cur : Group)
      (stack : List (Group × Option String)) (T : Group),
      gqLoop chs unpack elems seq cur stack = Except.ok T →
      (inputEvents chs unpack elems seq).map Prod.fst =
        List.range' seq (inputEvents chs unpack elems seq).length := by
  intro elems
  induction elems with
  | nil => intro seq cur stack T _; rfl
  | cons e rest ih =>
    intro seq cur stack T h
    by_cases hb : (e.type_ == "begin_group" || e.type_ == "begin_repeat") = true
    · have hrec : gqLoop chs unpack rest (seq + 1)
          (Group.mk (some (e.type_ == "begin_repeat")) e.label (some seq) none none)
          ((setGroupChild cur (pyName e) emptyGroup, pyName e) :: stack)
          = Except.ok T := by
        rw [← h]
        simp [gqLoop, hb]
      have ihr := ih (seq + 1) _ _ T hrec
      rw [show inputEvents chs unpack (e :: rest) seq
            = (seq, Item.group (pyName e)) :: inputEvents chs unpack rest (seq + 1)
          from by simp [inputEvents, hb]]
      simp only [List.map_cons, List.length_cons, ihr]
      rw [List.range'_succ]
    · by_cases he : (e.type_ == "end_group" || e.type_ == "end_repeat") = true
      · cases stack with
        | nil =>
          exfalso
          rw [show gqLoop chs unpack (e :: rest) seq cur [] = Except.error ()
              from by simp [gqLoop, hb, he]] at h
          exact Except.noConfusion h
        | cons pn rest' =>
          rcases pn with ⟨p, n⟩
          have hrec : gqLoop chs unpack rest seq (setGroupChild p n cur) rest'
              = Except.ok T := by
            rw [← h]
            simp [gqLoop, hb, he]
          have ihr := ih seq _ _ T hrec
          rw [show inputEvents chs unpack (e :: rest) seq
                = inputEvents chs unpack rest seq from by simp [inputEvents, hb, he]]
          exact ihr
      · cases hn : pyName e with
        | none =>
          exfalso
          rw [show gqLoop chs unpack (e :: rest) seq cur stack = Except.error ()
              from by simp [gqLoop, hb, he, hn]] at h
          exact Except.noConfusion h
        | some nm =>
          cases hbq : buildQuestion chs unpack e seq with
          | error err =>
            exfalso
            rw [show gqLoop chs unpack (e :: rest) seq cur stack = Except.error err
                from by simp [gqLoop, hb, he, hn, hbq]] at h
            exact Except.noConfusion h
          | ok pr =>
            rcases pr with ⟨q, seq2⟩
            have hrec : gqLoop chs unpack rest seq2 (attachQuestion cur nm q) stack
                = Except.ok T := by
              rw [← h]
              simp [gqLoop, hb, he, hn, hbq]
            have ihr := ih seq2 _ _ T hrec
            have hbi := buildQuestion_items chs unpack e nm seq seq2 q hnodup hbq
            rw [show inputEvents chs unpack (e :: rest) seq
                  = questionItems nm q ++ inputEvents chs unpack rest seq2
                from by simp [inputEvents, hb, he, hn, hbq]]
            rw [List.map_append, hbi.1, ihr, List.length_append]
            rw [show seq2 = seq + 1 * (questionItems nm q).length from by
              rw [hbi.2]; omega]
            rw [List.range'_append, Nat.add_comm]

/-- The main builder invariant: when the freshness checker accepts the
input (no dict assignment overwrites an existing entry), the items of
the tree the builder returns are a permutation of the tree so far plus
the depth-first event list of the remaining input. -/
theorem gqLoop_collect (chs : ChoiceIndex) (unpack : Bool) :
    ∀ (elems : List SurveyElem) (seq : Nat) (cur : Group)
      (stack : List (Group × Option String)) (T : Group),
      StackOK stack →
      distinctOKLoop chs unpack elems seq cur stack = true →
      gqLoop chs unpack elems seq cur stack = Except.ok T →
      (collectGroup T).Perm
        (collectGroup (flattenStack cur stack) ++ inputEvents chs unpack elems seq) := by
  intro elems
  induction elems with
  | nil =>
    intro seq cur stack T _ _ h
    have hT : flattenStack cur stack = T := Except.ok.inj h
    rw [← hT]
    simp [inputEvents]
  | cons e rest ih =>
    intro seq cur stack T hok hdist h
    by_cases hb : (e.type_ == "begin_group" || e.type_ == "begin_repeat") = true
    · rw [show distinctOKLoop chs unpack (e :: rest) seq cur stack
            = ((dictGet (cur.groups.getD []) (pyName e)).isNone &&
                distinctOKLoop chs unpack rest (seq + 1)
                  (Group.mk (some (e.type_ == "begin_repeat")) e.label (some seq) none none)
                  ((setGroupChild cur (pyName e) emptyGroup, pyName e) :: stack))
          from by simp [distinctOKLoop, hb]] at hdist
      rw [Bool.and_eq_true] at hdist
      obtain ⟨hfresh0, hdist2⟩ := hdist
      have hfresh : dictGet (cur.groups.getD []) (pyName e) = none :=
        Option.isNone_iff_eq_none.mp hfresh0
      have hrec : gqLoop chs unpack rest (seq + 1)
          (Group.mk (some (e.type_ == "begin_repeat")) e.label (some seq) none none)
          ((setGroupChild cur (pyName e) emptyGroup, pyName e) :: stack)
          = Except.ok T := by
        rw [← h]
        simp [gqLoop, hb]
      have hins : dictGet ((setGroupChild cur (pyName e) emptyGroup).groups.getD [])
          (pyName e) = some emptyGroup := by
        show dictGet (dictInsert (cur.groups.getD []) (pyName e) emptyGroup) (pyName e)
          = some emptyGroup
        exact dictGet_dictInsert_self _ _ _
      have hok2 : StackOK ((setGroupChild cur (pyName e) emptyGroup, pyName e) :: stack) := by
        intro pn hpn
        rcases List.mem_cons.mp hpn with hh | hmem
        · rw [hh]
          exact hins
        · exact hok pn hmem
      have ihres := ih (seq + 1) _ _ T hok2 hdist2 hrec
      have hpar : (collectGroup (setGroupChild cur (pyName e) emptyGroup)).Perm
          (collectGroup cur) := by
        have h1 := collectGroup_setGroupChild cur (pyName e) emptyGroup (Or.inl hfresh)
        rw [show seqGroupEntry (pyName e) emptyGroup = [] from by
              simp [seqGroupEntry, emptyGroup],
            collectGroup_emptyGroup, List.append_nil, List.append_nil] at h1
        exact h1
      have hentry : seqGroupEntry (pyName e)
          (Group.mk (some (e.type_ == "begin_repeat")) e.label (some seq) none none)
          = [(seq, Item.group (pyName e))] := by
        simp [seqGroupEntry]
      have hchild0 : collectGroup
          (Group.mk (some (e.type_ == "begin_repeat")) e.label (some seq) none none)
          = [] := by
        simp [collectGroup]
      have hstep : (collectGroup (setGroupChild (setGroupChild cur (pyName e) emptyGroup)
            (pyName e)
            (Group.mk (some (e.type_ == "begin_repeat")) e.label (some seq) none none))).Perm
          (collectGroup cur ++ [(seq, Item.group (pyName e))]) := by
        have h1 := collectGroup_setGroupChild (setGroupChild cur (pyName e) emptyGroup)
          (pyName e)
          (Group.mk (some (e.type_ == "begin_repeat")) e.label (some seq) none none)
          (Or.inr hins)
        rw [hentry, hchild0, List.append_nil] at h1
        exact h1.trans (List.Perm.append_right _ hpar)
      have hcongr := collect_flatten_congr stack cur
        (setGroupChild (setGroupChild cur (pyName e) emptyGroup) (pyName e)
          (Group.mk (some (e.type_ == "begin_repeat")) e.label (some seq) none none))
        [(seq, Item.group (pyName e))] hok rfl hstep
      rw [show inputEvents chs unpack (e :: rest) seq
            = (seq, Item.group (pyName e)) :: inputEvents chs unpack rest (seq + 1)
          from by simp [inputEvents, hb]]
      have hfin := ihres.trans (List.Perm.append_right _ hcongr)
      rw [show (collectGroup (flattenStack cur stack) ++ [(seq, Item.group (pyName e))]) ++
            inputEvents chs unpack rest (seq + 1)
          = collectGroup (flattenStack cur stack) ++
              ((seq, Item.group (pyName e)) :: inputEvents chs unpack rest (seq + 1))
          from by simp] at hfin
      exact hfin
    · by_cases he : (e.type_ == "end_group" || e.type_ == "end_repeat") = true
      · cases stack with
        | nil =>
          exfalso
          rw [show distinctOKLoop chs unpack (e :: rest) seq cur [] = false
              from by simp [distinctOKLoop, hb, he]] at hdist
          exact Bool.noConfusion hdist
        | cons pn rest' =>
          rcases pn with ⟨p, n⟩
          rw [show distinctOKLoop chs unpack (e :: rest) seq cur ((p, n) :: rest')
                = distinctOKLoop chs unpack rest seq (setGroupChild p n cur) rest'
              from by simp [distinctOKLoop, hb, he]] at hdist
          have hrec : gqLoop chs unpack rest seq (setGroupChild p n cur) rest'
              = Except.ok T := by
            rw [← h]
            simp [gqLoop, hb, he]
          have hok2 : StackOK rest' := fun pn hpn => hok pn (List.mem_cons_of_mem _ hpn)
          have ihres := ih seq _ rest' T hok2 hdist hrec
          rw [show inputEvents chs unpack (e :: rest) seq
                = inputEvents chs unpack rest seq from by simp [inputEvents, hb, he]]
          exact ihres
      · cases hn : pyName e with
        | none =>
          exfalso
          rw [show distinctOKLoop chs unpack (e :: rest) seq cur stack = false
              from by simp [distinctOKLoop, hb, he, hn]] at hdist
          exact Bool.noConfusion hdist
        | some nm =>
          cases hbq : buildQuestion chs unpack e seq with
          | error err =>
            exfalso
            rw [show distinctOKLoop chs unpack (e :: rest) seq cur stack
                  = ((dictGet (cur.questions.getD []) nm).isNone && false)
                from by simp [distinctOKLoop, hb, he, hn, hbq]] at hdist
            rw [Bool.and_false] at hdist
            exact Bool.noConfusion hdist
          | ok pr =>
            rcases pr with ⟨q, seq2⟩
            rw [show distinctOKLoop chs unpack (e :: rest) seq cur stack
                  = ((dictGet (cur.questions.getD []) nm).isNone &&
                      distinctOKLoop chs unpack rest seq2 (attachQuestion cur nm q) stack)
                from by simp [distinctOKLoop, hb, he, hn, hbq]] at hdist
            rw [Bool.and_eq_true] at hdist
            obtain ⟨hfresh0, hdist2⟩ := hdist
            have hfresh : dictGet (cur.questions.getD []) nm = none :=
              Option.isNone_iff_eq_none.mp hfresh0
            have hrec : gqLoop chs unpack rest seq2 (attachQuestion cur nm q) stack
                = Except.ok T := by
              rw [← h]
              simp [gqLoop, hb, he, hn, hbq]
            have ihres := ih seq2 _ stack T hok hdist2 hrec
            have hstep : (collectGroup (attachQuestion cur nm q)).Perm
                (collectGroup cur ++ questionItems nm q) :=
              collectGroup_attachQuestion cur nm q hfresh
            have hcongr := collect_flatten_congr stack cur (attachQuestion cur nm q)
              (questionItems nm q) hok rfl hstep
            rw [show inputEvents chs unpack (e :: rest) seq
                  = questionItems nm q ++ inputEvents chs unpack rest seq2
                from by simp [inputEvents, hb, he, hn, hbq]]
            have hfin := ihres.trans (List.Perm.append_right _ hcongr)
            rw [show (collectGroup (flattenStack cur stack) ++ questionItems nm q) ++
                  inputEvents chs unpack rest seq2
                = collectGroup (flattenStack cur stack) ++
                    (questionItems nm q ++ inputEvents chs unpack rest seq2)
                from by simp] at hfin
            exact hfin

theorem pairwise_lt_of_le_nodup :
    ∀ l : List (Nat × Item),
      l.Pairwise (fun a b => a.1 ≤ b.1) →
      (l.map Prod.fst).Nodup →
      l.Pairwise (fun a b => a.1 < b.1) := by
  intro l
  induction l with
  | nil => intro _ _; exact List.Pairwise.nil
  | cons p rest ih =>
    intro h1 h2
    rcases List.pairwise_cons.mp h1 with ⟨h1a, h1b⟩
    rw [List.map_cons, List.nodup_cons] at h2
    obtain ⟨hnotin, hnd⟩ := h2
    refine List.pairwise_cons.mpr ⟨?_, ih h1b hnd⟩
    intro b hb
    refine Nat.lt_of_le_of_ne (h1a b hb) ?_
    intro he
    apply hnotin
    rw [he]
    exact List.mem_map_of_mem Prod.fst hb

/-- C2 (amended): on a balanced survey accepted by the freshness
checker (no dict assignment in the builder overwrites an existing
entry), `get_questions` hands out sequence numbers from one counter
starting at 0 that ticks exactly once per group-open element, once per
question, once per unpacked choice sub-entry and once per `'other'`
sub-entry, in input order — the depth-first event keys are exactly
`0, 1, 2, …` — so all assigned numbers are distinct and strictly
increasing along the input, and sorting every collected item of the
returned tree by sequence number reconstructs the depth-first input
event order exactly. -/
theorem C2_sequence_counter (asset : Asset) (unpack : Bool) (T : Group)
    (hbal : balancedSurvey asset.survey 0 = true)
    (hdist : distinctOKLoop (get_choices asset.choices) unpack asset.survey 0
      emptyGroup [] = true)
    (h : get_questions asset unpack = Except.ok T) :
    (inputEvents (get_choices asset.choices) unpack asset.survey 0).map Prod.fst =
      List.range' 0
        (inputEvents (get_choices asset.choices) unpack asset.survey 0).length ∧
    List.insertionSort (fun a b : Nat × Item => a.1 ≤ b.1) (collectGroup T) =
      inputEvents (get_choices asset.choices) unpack asset.survey 0 := by
  have hnodup := get_choices_bucket_nodup asset.choices
  have hev := inputEvents_keys (get_choices asset.choices) unpack hnodup
    asset.survey 0 emptyGroup [] T h
  refine ⟨hev, ?_⟩
  have hP := gqLoop_collect (get_choices asset.choices) unpack asset.survey 0
    emptyGroup [] T (fun pn hpn => absurd hpn (List.not_mem_nil pn)) hdist h
  rw [show collectGroup (flattenStack emptyGroup []) = ([] : List (Nat × Item))
      from collectGroup_emptyGroup, List.nil_append] at hP
  haveI : IsTotal (Nat × Item) (fun a b => a.1 ≤ b.1) :=
    ⟨fun a b => Nat.le_total a.1 b.1⟩
  haveI : IsTrans (Nat × Item) (fun a b => a.1 ≤ b.1) :=
    ⟨fun a b c h1 h2 => Nat.le_trans h1 h2⟩
  have hsorted := List.sorted_insertionSort (fun a b : Nat × Item => a.1 ≤ b.1)
    (collectGroup T)
  have hperm := List.perm_insertionSort (fun a b : Nat × Item => a.1 ≤ b.1)
    (collectGroup T)
  have hpermS : (List.insertionSort (fun a b : Nat × Item => a.1 ≤ b.1)
      (collectGroup T)).Perm
      (inputEvents (get_choices asset.choices) unpack asset.survey 0) :=
    hperm.trans hP
  have hndE : ((inputEvents (get_choices asset.choices) unpack
      asset.survey 0).map Prod.fst).Nodup := by
    rw [hev]
    exact List.nodup_range' 0 _
  have hndS : ((List.insertionSort (fun a b : Nat × Item => a.1 ≤ b.1)
      (collectGroup T)).map Prod.fst).Nodup :=
    ((hpermS.map Prod.fst).nodup_iff).mpr hndE
  have hltS := pairwise_lt_of_le_nodup _ hsorted hndS
  have hltE : (inputEvents (get_choices asset.choices) unpack
      asset.survey 0).Pairwise (fun a b => a.1 < b.1) := by
    have hmap : ((inputEvents (get_choices asset.choices) unpack
        asset.survey 0).map Prod.fst).Pairwise (· < ·) := by
      rw [hev]
      exact List.pairwise_lt_range' 0 _
    exact List.pairwise_map.mp hmap
  haveI : IsAntisymm (Nat × Item) (fun a b => a.1 < b.1) :=
    ⟨fun a b h1 h2 => absurd (Nat.lt_trans h1 h2) (Nat.lt_irrefl _)⟩
  exact List.eq_of_perm_of_sorted hpermS hltS hltE

/-- C2: the claim as frozen fails without a distinct-names proviso: on
the balanced survey of two questions both coded `"a"`, `get_questions`
succeeds, but the second question's dict assignment overwrites the
first, so sorting the collected items of the returned tree by sequence
number yields one question item where the depth-first input order has
two — the original definition order is not reconstructed. -/
theorem C2_counterexample_duplicate_names :
    ∃ asset : Asset, ∃ T : Group,
      balancedSurvey asset.survey 0 = true ∧
      get_questions asset false = Except.ok T ∧
      List.insertionSort (fun a b : Nat × Item => a.1 ≤ b.1) (collectGroup T) ≠
        inputEvents (get_choices asset.choices) false asset.survey 0 := by
  refine ⟨⟨[⟨"text", some "a", none, none, none, false⟩,
            ⟨"text", some "a", none, none, none, false⟩], []⟩,
          Group.mk none none none
            (some [("a", ⟨"text", 1, none, none, none, none⟩)]) none,
          rfl, rfl, ?_⟩
  rw [show collectGroup (Group.mk none none none
        (some [("a", (⟨"text", 1, none, none, none, none⟩ : Question))]) none)
      = [(1, Item.question "a" "text")] from by
    simp [collectGroup, collectQList, collectGList, questionItems]]
  decide

theorem C2_sequence_counter_witness :
    balancedSurvey ([⟨"text", some "a", none, none, none, false⟩] :
      List SurveyElem) 0 = true ∧
    distinctOKLoop (get_choices ([] : List ChoiceElem)) false
      [⟨"text", some "a", none, none, none, false⟩] 0 emptyGroup [] = true ∧
    get_questions ⟨[⟨"text", some "a", none, none, none, false⟩], []⟩ false
      = Except.ok (Group.mk none none none
          (some [("a", ⟨"text", 0, none, none, none, none⟩)]) none) ∧
    ((inputEvents (get_choices ([] : List ChoiceElem)) false
        [⟨"text", some "a", none, none, none, false⟩] 0).map Prod.fst =
      List.range' 0
        (inputEvents (get_choices ([] : List ChoiceElem)) false
          [⟨"text", some "a", none, none, none, false⟩] 0).length ∧
     List.insertionSort (fun a b : Nat × Item => a.1 ≤ b.1)
        (collectGroup (Group.mk none none none
          (some [("a", ⟨"text", 0, none, none, none, none⟩)]) none)) =
      inputEvents (get_choices ([] : List ChoiceElem)) false
        [⟨"text", some "a", none, none, none, false⟩] 0) :=
  ⟨rfl, rfl, rfl,
   C2_sequence_counter ⟨[⟨"text", some "a", none, none, none, false⟩], []⟩ false
     (Group.mk none none none
       (some [("a", ⟨"text", 0, none, none, none, none⟩)]) none)
     rfl rfl rfl⟩

end Kobo
